import Mathlib

/-!
# Verification of the huffman-compression core

Shallow embedding of `src/huffman-compression/src/huffman.rs`.

Conventions of the embedding:
* A Rust `char` (Unicode scalar value) is a `Nat` satisfying `validScalar`.
* Rust `String`s are lists of scalar values; byte buffers (`Vec<u8>`,
  `&[u8]`) are lists of `Nat` below 256.  The bit-strings manipulated by the
  program are strings over the ASCII characters '0' (48) and '1' (49), so
  they appear as `List Nat` as well.
* `HashMap` iteration order is unspecified in Rust; the embedding fixes the
  insertion order (association lists).  Every theorem below either holds for
  any order or only depends on the multiset of entries.
* Rust panics (`unwrap`, slice out of bounds, `HashMap` indexing) are
  modelled by an explicit `panicked` outcome / `Option.none`; `Result::Err`
  values propagated with `?` are modelled by an explicit error outcome.
* The `BinaryHeap<BoxedHuffNode>` is a min-heap on node weight (the
  `PartialOrd` impl for `BoxedHuffNode` reverses the comparison).  Which of
  two equal-weight nodes is popped first is unspecified; the embedding pops
  the earliest minimal-weight element.
-/

namespace HuffmanModel

/-! ### UTF-8 byte model (Rust `char::to_string` / `String::from_utf8`) -/

/-- Unicode scalar validity: the invariant of a Rust `char` (and a Lean
`Char`): below the surrogate range or between it and 0x110000. -/
def validScalar (c : Nat) : Prop := c < 0xD800 ∨ (0xE000 ≤ c ∧ c < 0x110000)

instance (c : Nat) : Decidable (validScalar c) := by
  unfold validScalar; infer_instance

/-- The UTF-8 encoding of a scalar value, as produced by Rust when a `char`
is appended to a `String` (`key.to_string()` in `write_header`). -/
def utf8Encode (c : Nat) : List Nat :=
  if c < 0x80 then [c]
  else if c < 0x800 then [0xC0 + c / 64, 0x80 + c % 64]
  else if c < 0x10000 then
    [0xE0 + c / 4096, 0x80 + c / 64 % 64, 0x80 + c % 64]
  else
    [0xF0 + c / 262144, 0x80 + c / 4096 % 64, 0x80 + c / 64 % 64, 0x80 + c % 64]

/-- A UTF-8 continuation byte: `10xxxxxx`. -/
def isContByte (b : Nat) : Bool := decide (0x80 ≤ b) && decide (b < 0xC0)

/-- Decode the first UTF-8 character of a byte list, returning the scalar
value and the number of bytes consumed.  Follows the strict validation of
Rust `String::from_utf8`: rejects continuation-byte starts, overlong
encodings (`C0`/`C1`, and the range checks), surrogates and values above
0x10FFFF. -/
def utf8DecodeFirst : List Nat → Option (Nat × Nat)
  | [] => none
  | b0 :: rest =>
    if b0 < 0x80 then some (b0, 1)
    else if b0 < 0xC2 then none
    else if b0 < 0xE0 then
      match rest with
      | b1 :: _ =>
        if isContByte b1 then some ((b0 - 0xC0) * 64 + (b1 - 0x80), 2) else none
      | [] => none
    else if b0 < 0xF0 then
      match rest with
      | b1 :: b2 :: _ =>
        if isContByte b1 && isContByte b2 then
          let v := (b0 - 0xE0) * 4096 + (b1 - 0x80) * 64 + (b2 - 0x80)
          if 0x800 ≤ v ∧ ¬(0xD800 ≤ v ∧ v < 0xE000) then some (v, 3) else none
        else none
      | _ => none
    else if b0 < 0xF5 then
      match rest with
      | b1 :: b2 :: b3 :: _ =>
        if isContByte b1 && isContByte b2 && isContByte b3 then
          let v := (b0 - 0xF0) * 262144 + (b1 - 0x80) * 4096 +
            (b2 - 0x80) * 64 + (b3 - 0x80)
          if 0x10000 ≤ v ∧ v < 0x110000 then some (v, 4) else none
        else none
      | _ => none
    else none

/-- Decode a whole byte list as UTF-8 (fuelled; `utf8DecodeFirst` always
consumes at least one byte, so fuel `l.length` suffices). -/
def utf8DecodeAllAux : Nat → List Nat → Option (List Nat)
  | _, [] => some []
  | 0, _ :: _ => none
  | fuel + 1, l =>
    match utf8DecodeFirst l with
    | some (c, k) =>
      match utf8DecodeAllAux fuel (l.drop k) with
      | some cs => some (c :: cs)
      | none => none
    | none => none

/-- The character sequence of `String::from_utf8 bytes` (`none` models the
`FromUtf8Error`). -/
def utf8DecodeAll (l : List Nat) : Option (List Nat) := utf8DecodeAllAux l.length l

/-! ### The Huffman tree (`HuffLeafNode` / `HuffInternalNode`)

The Rust side uses trait objects with downcasting; the spec (§9) and this
embedding use a sum type with the same two cases and fields. -/

inductive HTree where
  | leaf (sym : Nat) (w : Nat)
  | internal (left right : HTree) (w : Nat)
deriving DecidableEq, Repr

/-- `HuffBaseNode::weight`. -/
def HTree.weight : HTree → Nat
  | .leaf _ w => w
  | .internal _ _ w => w

/-- `HuffBaseNode::is_leaf`. -/
def HTree.isLeaf : HTree → Bool
  | .leaf _ _ => true
  | .internal _ _ _ => false

/-- The symbols at the leaves, left to right. -/
def HTree.leaves : HTree → List Nat
  | .leaf s _ => [s]
  | .internal l r _ => l.leaves ++ r.leaves

/-- Number of leaves. -/
def HTree.leafCount (t : HTree) : Nat := t.leaves.length

/-- Number of internal nodes. -/
def HTree.internalCount : HTree → Nat
  | .leaf _ _ => 0
  | .internal l r _ => l.internalCount + r.internalCount + 1

/-- Height of the tree (0 for a leaf). -/
def HTree.depth : HTree → Nat
  | .leaf _ _ => 0
  | .internal l r _ => max l.depth r.depth + 1

/-- The tree weight invariant: every internal node stores the sum of its
children's weights. -/
def HTree.wf : HTree → Bool
  | .leaf _ _ => true
  | .internal l r w => (w == l.weight + r.weight) && l.wf && r.wf

/-! ### `build_tree`: the priority-queue merge loop

Rust pushes every `(symbol, weight)` pair as a leaf into a
`BinaryHeap<BoxedHuffNode>` (a min-heap on weight, see the reversed
`PartialOrd`), then repeatedly pops the two lightest nodes and pushes an
internal node owning them (first popped = left), until one node remains.
The heap is modelled as a plain list; `popMinAux` removes an element of
minimal weight (the earliest such element — the tie-break among equal
weights is unspecified in the source). -/

/-- Remove a minimal-weight element from `t :: l`, returning it and the
remaining elements. -/
def popMinAux (t : HTree) : List HTree → HTree × List HTree
  | [] => (t, [])
  | u :: rest =>
    if t.weight ≤ u.weight then
      let p := popMinAux t rest
      (p.1, u :: p.2)
    else
      let p := popMinAux u rest
      (p.1, t :: p.2)

/-- The merge loop of `build_tree` (`while heap.len() > 1 { ... }` followed
by the final `heap.pop().unwrap()`).  `none` models a failing `unwrap` (pop
from the empty heap).  The fuel argument only bounds the iteration count;
`buildTree` supplies fuel `table.length`, which always suffices because each
iteration shrinks the heap by one. -/
def buildLoopN : Nat → List HTree → Option HTree
  | _, [] => none
  | _, [t] => some t
  | 0, _ :: _ :: _ => none
  | n + 1, a :: b :: rest =>
    let p1 := popMinAux a (b :: rest)
    match p1.2 with
    | [] => none
    | c :: r1 =>
      let p2 := popMinAux c r1
      buildLoopN n (p2.2 ++ [HTree.internal p1.1 p2.1 (p1.1.weight + p2.1.weight)])

/-- `HuffmanCompression::build_tree`. -/
def buildTree (table : List (Nat × Nat)) : Option HTree :=
  buildLoopN table.length (table.map fun e => HTree.leaf e.1 e.2)

/-! ### `generate_huffman_code` / `dfs` -/

/-- The recursive code-assigning walk `dfs`: push '0' (byte 48) before the
left child, '1' (byte 49) before the right child, record the accumulated
bit-string at each leaf.  The `HashMap` insertions are modelled by the list
of (symbol, code) pairs in insertion order. -/
def dfs : HTree → List Nat → List (Nat × List Nat)
  | .leaf s _, bits => [(s, bits)]
  | .internal l r _, bits => dfs l (bits ++ [48]) ++ dfs r (bits ++ [49])

/-- `HuffmanCompression::generate_huffman_code`. -/
def generateHuffmanCode (root : HTree) : List (Nat × List Nat) := dfs root []

/-! ### `read`: the frequency table -/

/-- One step of the counting loop: `table.insert(c, table.get(&c).unwrap_or(&0) + 1)`. -/
def bumpKey : List (Nat × Nat) → Nat → List (Nat × Nat)
  | [], c => [(c, 1)]
  | (k, v) :: rest, c =>
    if k = c then (k, v + 1) :: rest else (k, v) :: bumpKey rest c

/-- The frequency table built by `read` from the character stream of the
source file (association list keyed by symbol, first-occurrence order). -/
def readTable (src : List Nat) : List (Nat × Nat) := src.foldl bumpKey []

/-! ### `write_header` -/

/-- `MAGIC_NUMBER = b"HUFF"`. -/
def magicBytes : List Nat := [72, 85, 70, 70]

/-- Big-endian bytes of a `u32` (`to_be_bytes`); the `% 256` of each byte
also models the `as u32` truncation of a larger length. -/
def be32 (n : Nat) : List Nat :=
  [n / 2 ^ 24 % 256, n / 2 ^ 16 % 256, n / 2 ^ 8 % 256, n % 256]

/-- One table entry as written by `write_header`: symbol byte length
(`key.len() as u8`), the symbol's UTF-8 bytes, code byte length
(`value.len() as u8`, truncating), the code's ASCII bytes. -/
def serializeEntry (e : Nat × List Nat) : List Nat :=
  let kb := utf8Encode e.1
  [kb.length % 256] ++ kb ++ [e.2.length % 256] ++ e.2

/-- The serialized code table (the `buf` of `write_header`). -/
def serializeTable (table : List (Nat × List Nat)) : List Nat :=
  (table.map serializeEntry).flatten

/-- `HuffmanCompression::write_header`: magic, 4-byte big-endian table
length, then the entries. -/
def writeHeader (table : List (Nat × List Nat)) : List Nat :=
  magicBytes ++ be32 (serializeTable table).length ++ serializeTable table

/-! ### `encode_content` -/

/-- Code lookup `&table[&c]`; `none` models the panic of indexing a
`HashMap` at a missing key. -/
def lookupCode : List (Nat × List Nat) → Nat → Option (List Nat)
  | [], _ => none
  | e :: rest, c => if e.1 = c then some e.2 else lookupCode rest c

/-- The concatenation loop `for c in buf.chars() { encoded_data.push_str(&table[&c]) }`. -/
def codeConcat (table : List (Nat × List Nat)) : List Nat → Option (List Nat)
  | [] => some []
  | c :: rest =>
    match lookupCode table c, codeConcat table rest with
    | some code, some tail => some (code ++ tail)
    | _, _ => none

/-- `while encoded_data.len() % 8 != 0 { encoded_data.push('0') }`. -/
def padZeros (l : List Nat) : List Nat :=
  l ++ List.replicate ((8 - l.length % 8) % 8) 48

/-- `.chunks(8)`: split into chunks of 8, a shorter final chunk kept (the
padded input is always a multiple of 8, so here all chunks have length 8). -/
def chunks8 : List Nat → List (List Nat)
  | [] => []
  | a :: b :: c :: d :: e :: f :: g :: h :: rest =>
    [a, b, c, d, e, f, g, h] :: chunks8 rest
  | l => [l]

/-- `u8::from_str_radix(chunk, 2)` on a chunk of ASCII '0'/'1' characters:
the base-2 left fold of the digit values. -/
def bitsToByte (chunk : List Nat) : Nat :=
  chunk.foldl (fun a c => a * 2 + (c - 48)) 0

/-- `HuffmanCompression::encode_content` (the source content is given as its
character stream; file I/O is outside the model).  `none` models the panic
on a symbol missing from the code table. -/
def encodeContent (table : List (Nat × List Nat)) (src : List Nat) :
    Option (List Nat) :=
  match codeConcat table src with
  | none => none
  | some bits => some ((chunks8 (padZeros bits)).map bitsToByte)

/-- Outcome of `encode` (I/O errors aside): either a panic or the byte
buffer written to the destination file. -/
inductive EncResult where
  | panicked
  | ok (bytes : List Nat)
deriving DecidableEq, Repr

/-- `HuffmanCompression::encode`: frequency table, tree, code table, header
plus packed content. -/
def encode (src : List Nat) : EncResult :=
  match buildTree (readTable src) with
  | none => .panicked
  | some root =>
    let table := generateHuffmanCode root
    match encodeContent table src with
    | none => .panicked
    | some content => .ok (writeHeader table ++ content)

/-! ### `decode` -/

/-- `format!("{:08b}", byte)`: the 8 ASCII binary digits of a byte,
most significant first. -/
def toBin8 (b : Nat) : List Nat :=
  [48 + b / 128 % 2, 48 + b / 64 % 2, 48 + b / 32 % 2, 48 + b / 16 % 2,
   48 + b / 8 % 2, 48 + b / 4 % 2, 48 + b / 2 % 2, 48 + b % 2]

/-- `HashMap::insert` on the reverse lookup table (replace an existing key,
else append). -/
def insertReplace (t : List (List Nat × Nat)) (k : List Nat) (v : Nat) :
    List (List Nat × Nat) :=
  match t with
  | [] => [(k, v)]
  | e :: rest => if e.1 = k then (k, v) :: rest else e :: insertReplace rest k v

/-- `be32val` reads a big-endian `u32` from the first four bytes
(`Buf::get_u32`); callers guard the length, so the `_` case is unreachable. -/
def be32val : List Nat → Nat
  | b0 :: b1 :: b2 :: b3 :: _ => ((b0 * 256 + b1) * 256 + b2) * 256 + b3
  | _ => 0

/-- Outcome of the header-table parsing loop of `decode`. -/
inductive ParseResult where
  | panicked
  | errReturn
  | ok (table : List (List Nat × Nat)) (rest : List Nat)
deriving DecidableEq, Repr

/-- The `while len < table_len` entry-parsing loop of `decode`.  Each entry:
`get_u8` key length (panics on an empty buffer), `String::from_utf8` of the
key slice (error propagated with `?`; slicing past the end panics), `get_u8`
value length, `from_utf8` of the value slice, `key.chars().nth(0).unwrap()`
(panics on an empty key), insert (code bytes → first key char).  `len` and
`table_len` are `u32` in the source; the model uses `Nat` (they only differ
past a 4 GiB table).  `len` grows by `2 + key_len + value_len ≥ 2` per
iteration, so fuel `tableLen + 1` always suffices and the fuel-out branch is
unreachable. -/
def parseTableAux : Nat → Nat → Nat → List Nat → List (List Nat × Nat) →
    ParseResult
  | 0, _, _, _, _ => .panicked
  | fuel + 1, tableLen, len, buf, acc =>
    if len < tableLen then
      match buf with
      | [] => .panicked
      | keyLen :: buf1 =>
        if buf1.length < keyLen then .panicked
        else
          match utf8DecodeAll (buf1.take keyLen) with
          | none => .errReturn
          | some keyChars =>
            match buf1.drop keyLen with
            | [] => .panicked
            | valLen :: buf3 =>
              if buf3.length < valLen then .panicked
              else
                match utf8DecodeAll (buf3.take valLen) with
                | none => .errReturn
                | some _ =>
                  match keyChars with
                  | [] => .panicked
                  | key :: _ =>
                    parseTableAux fuel tableLen (len + 1 + keyLen + 1 + valLen)
                      (buf3.drop valLen) (insertReplace acc (buf3.take valLen) key)
    else .ok acc buf

/-- One structural pass of the inner `for (value, c) in &lookup_table` loop:
each entry whose code is a prefix of the current bit-string is consumed in
turn (the scan does not restart after a match).  State: remaining bit-string
and emitted characters. -/
def passFold : List (List Nat × Nat) → List Nat → List Nat → List Nat × List Nat
  | [], s, out => (s, out)
  | e :: rest, s, out =>
    if e.1.isPrefixOf s then passFold rest (s.drop e.1.length) (out ++ [e.2])
    else passFold rest s out

/-- The outer `while matched_str.len() > 0` loop, fuelled: `none` means the
fuel ran out with bits remaining (in particular, a pass that matches no
entry makes no progress, and the loop never terminates). -/
def decodeLoop : Nat → List (List Nat × Nat) → List Nat → List Nat →
    Option (List Nat)
  | _, _, [], out => some out
  | 0, _, _ :: _, _ => none
  | fuel + 1, table, s, out =>
    let p := passFold table s out
    decodeLoop fuel table p.1 p.2

/-- Outcome of one `decode` call.  `wrote text`: the destination file was
created and holds `text` (as characters); `badMagic`: the magic check
failed, a message was printed and `Ok(())` was returned to the caller
without touching the destination; `errReturn`: an `Err` was returned via
`?`; `panicked`: a panic (slice out of bounds / failing unwrap). -/
inductive DecodeOutcome where
  | wrote (text : List Nat)
  | badMagic
  | errReturn
  | panicked
deriving DecidableEq, Repr

/-- `HuffmanCompression::decode` on the byte content of the source file.
The fuel only bounds the greedy bit-consumption loop; every other part of
the function terminates on its own.  `none` means that loop was still
running after `fuel` passes. -/
def decode (fuel : Nat) (buf : List Nat) : Option DecodeOutcome :=
  if buf.length < 4 then some .panicked
  else if buf.take 4 ≠ magicBytes then some .badMagic
  else if buf.length < 8 then some .panicked
  else
    let tableLen := be32val (buf.drop 4)
    match parseTableAux (tableLen + 1) tableLen 0 (buf.drop 8) [] with
    | .panicked => some .panicked
    | .errReturn => some .errReturn
    | .ok table rest =>
      let bits := (rest.map toBin8).flatten
      match decodeLoop fuel table bits [] with
      | none => none
      | some out => some (.wrote out)

/-! ### Derived definitions used by the statements below -/

/-- Does the outcome hand an `Err` value back to the caller?  (`badMagic`
prints a message and returns `Ok(())`, so it does not.) -/
def DecodeOutcome.returnsErr : DecodeOutcome → Bool
  | .errReturn => true
  | _ => false

/-- The code of a symbol in a code table (defaulting to the empty code;
only used where the symbol is known to be present). -/
def codeOf (table : List (Nat × List Nat)) (c : Nat) : List Nat :=
  (lookupCode table c).getD []

/-- The code table `encode` derives from a source text (empty when
`build_tree` panics, i.e. only for empty input). -/
def codeTableOf (src : List Nat) : List (Nat × List Nat) :=
  match buildTree (readTable src) with
  | some t => generateHuffmanCode t
  | none => []

/-- The concatenated code bits of the whole source text (before padding). -/
def encodedBits (src : List Nat) : List Nat :=
  (src.map (codeOf (codeTableOf src))).flatten

/-- The reverse lookup table (code → symbol) corresponding to a code table
(symbol → code). -/
def revTable (table : List (Nat × List Nat)) : List (List Nat × Nat) :=
  table.map fun e => (e.2, e.1)

/-- Folding the decoder's `lookup_table.insert(value, key)` over a list of
(symbol, code) entries. -/
def insertAll (acc : List (List Nat × Nat)) (tbl : List (Nat × List Nat)) :
    List (List Nat × Nat) :=
  tbl.foldl (fun a e => insertReplace a e.2 e.1) acc

/-- Spec-side packing of one 8-bit chunk (§4.4 step 4): the chunk's
characters are bits, most significant first, so the character at position
`i` carries weight `2 ^ (7 - i)`. -/
def specPackChunk (chunk : List Nat) : Nat :=
  (chunk.enum.map fun p => (p.2 - 48) * 2 ^ (7 - p.1)).sum

/-- Spec-side container layout (claim C5): magic, 4-byte big-endian table
byte length, per-entry [symbol length, symbol UTF-8 bytes, code length,
code ASCII bytes], then the source's concatenated codes zero-padded to a
byte boundary and packed MSB-first. -/
def specContainer (table : List (Nat × List Nat)) (src : List Nat) : List Nat :=
  let entries :=
    (table.map fun e =>
      [(utf8Encode e.1).length % 256] ++ utf8Encode e.1 ++
        [e.2.length % 256] ++ e.2).flatten
  let bits := (src.map fun c => codeOf table c).flatten
  magicBytes ++ be32 entries.length ++ entries ++
    (chunks8 (padZeros bits)).map specPackChunk

/-- A hand-crafted container accepted by `decode` (valid magic and table:
one entry mapping code "11" to 'a') whose single payload byte expands to
bits "00000000", which no code matches: the greedy loop makes no progress. -/
def stuckContainer : List Nat :=
  [72, 85, 70, 70, 0, 0, 0, 5, 1, 97, 2, 49, 49, 0]

/-! ## Facts about the heap model -/

theorem popMinAux_length (t : HTree) (l : List HTree) :
    (popMinAux t l).2.length = l.length := by
  induction l generalizing t with
  | nil => rfl
  | cons u rest ih =>
    by_cases h : t.weight ≤ u.weight <;> simp [popMinAux, h, ih]

theorem popMinAux_perm (t : HTree) (l : List HTree) :
    (t :: l).Perm ((popMinAux t l).1 :: (popMinAux t l).2) := by
  induction l generalizing t with
  | nil => simp [popMinAux]
  | cons u rest ih =>
    by_cases h : t.weight ≤ u.weight
    · simp only [popMinAux, if_pos h]
      exact (List.Perm.swap u t rest).trans ((ih t).cons u) |>.trans
        (List.Perm.swap (popMinAux t rest).1 u (popMinAux t rest).2)
    · simp only [popMinAux, if_neg h]
      exact ((ih u).cons t).trans
        (List.Perm.swap (popMinAux u rest).1 t (popMinAux u rest).2)

theorem popMinAux_min (t : HTree) (l : List HTree) :
    ∀ u ∈ t :: l, ((popMinAux t l).1).weight ≤ u.weight := by
  induction l generalizing t with
  | nil => intro u hu; simp at hu; subst hu; exact le_refl _
  | cons v rest ih =>
    intro u hu
    simp only [List.mem_cons] at hu
    by_cases h : t.weight ≤ v.weight
    · simp only [popMinAux, if_pos h]
      rcases hu with h1 | h1 | h1
      · subst h1; exact ih u u (by simp)
      · subst h1; exact le_trans (ih t t (by simp)) h
      · exact ih t u (by simp [h1])
    · simp only [popMinAux, if_neg h]
      have hvt : v.weight ≤ t.weight := le_of_not_le h
      rcases hu with h1 | h1 | h1
      · subst h1; exact le_trans (ih v v (by simp)) hvt
      · subst h1; exact ih u u (by simp)
      · exact ih v u (by simp [h1])

theorem HTree.leafCount_pos (t : HTree) : 1 ≤ t.leafCount := by
  induction t with
  | leaf s w => simp [HTree.leafCount, HTree.leaves]
  | internal l r w ihl ihr =>
    simp only [HTree.leafCount, HTree.leaves, List.length_append] at *
    omega

theorem HTree.leafCount_internal (l r : HTree) (w : Nat) :
    (HTree.internal l r w).leafCount = l.leafCount + r.leafCount := by
  simp [HTree.leafCount, HTree.leaves]

/-- Master induction over the merge loop of `build_tree`: with enough fuel a
non-empty heap yields a root whose weight is the total heap weight, whose
leaves are the heap leaves, and which inherits well-formedness, the
leaf/internal count relation and the depth bound from the heap elements. -/
theorem buildLoopN_master :
    ∀ (n : Nat) (H : List HTree), H ≠ [] → H.length ≤ n + 1 →
    ∃ t, buildLoopN n H = some t ∧
      t.weight = (H.map HTree.weight).sum ∧
      t.leaves.Perm (H.map HTree.leaves).flatten ∧
      ((∀ u ∈ H, u.wf = true) → t.wf = true) ∧
      ((∀ u ∈ H, u.internalCount + 1 = u.leafCount) →
        t.internalCount + 1 = t.leafCount) ∧
      ((∀ u ∈ H, u.depth + 1 ≤ u.leafCount) → t.depth + 1 ≤ t.leafCount) := by
  intro n
  induction n with
  | zero =>
    intro H hne hlen
    match H with
    | [] => exact absurd rfl hne
    | [t] =>
      refine ⟨t, rfl, by simp, by simp, fun h => h t (by simp),
        fun h => h t (by simp), fun h => h t (by simp)⟩
    | a :: b :: rest => simp at hlen
  | succ n ih =>
    intro H hne hlen
    match H with
    | [] => exact absurd rfl hne
    | [t] =>
      refine ⟨t, rfl, by simp, by simp, fun h => h t (by simp),
        fun h => h t (by simp), fun h => h t (by simp)⟩
    | a :: b :: rest =>
      have hp1len : (popMinAux a (b :: rest)).2.length = rest.length + 1 := by
        simpa using popMinAux_length a (b :: rest)
      match hp : (popMinAux a (b :: rest)).2 with
      | [] => rw [hp] at hp1len; simp at hp1len
      | c :: r1 =>
        set x := (popMinAux a (b :: rest)).1 with hx
        set y := (popMinAux c r1).1 with hy
        have hstep : buildLoopN (n + 1) (a :: b :: rest) =
            buildLoopN n ((popMinAux c r1).2 ++
              [HTree.internal x y (x.weight + y.weight)]) := by
          conv_lhs => rw [buildLoopN]
          rw [hp]
        have hr1len : r1.length = rest.length := by
          rw [hp] at hp1len; simpa using hp1len
        have hp2len : (popMinAux c r1).2.length = rest.length := by
          rw [popMinAux_length, hr1len]
        -- the multiset view of the two pops
        have hperm1 : (a :: b :: rest).Perm (x :: c :: r1) := by
          have := popMinAux_perm a (b :: rest)
          rwa [hp, ← hx] at this
        have hperm2 : (c :: r1).Perm (y :: (popMinAux c r1).2) :=
          popMinAux_perm c r1
        have hperm : (a :: b :: rest).Perm (x :: y :: (popMinAux c r1).2) :=
          hperm1.trans (hperm2.cons x)
        set node := HTree.internal x y (x.weight + y.weight) with hnode
        set H2 := (popMinAux c r1).2 ++ [node] with hH2
        have hH2ne : H2 ≠ [] := by simp [hH2]
        have hH2len : H2.length ≤ n + 1 := by
          simp only [hH2, List.length_append, List.length_cons, List.length_nil,
            hp2len]
          simp only [List.length_cons] at hlen
          omega
        obtain ⟨t, ht, htw, htl, htwf, htc, htd⟩ := ih H2 hH2ne hH2len
        have hmemx : x ∈ a :: b :: rest := hperm.mem_iff.2 (by simp)
        have hmemy : y ∈ a :: b :: rest := hperm.mem_iff.2 (by simp)
        have hmem2 : ∀ u ∈ (popMinAux c r1).2, u ∈ a :: b :: rest := by
          intro u hu
          exact hperm.mem_iff.2 (by simp [hu])
        refine ⟨t, by rw [hstep]; exact ht, ?_, ?_, ?_, ?_, ?_⟩
        · -- total weight is preserved by the merge
          rw [htw]
          have hs : ((a :: b :: rest).map HTree.weight).sum =
              ((x :: y :: (popMinAux c r1).2).map HTree.weight).sum :=
            (hperm.map HTree.weight).sum_eq
          rw [hs]
          simp only [hH2, List.map_append, List.sum_append, List.map_cons,
            List.sum_cons, List.map_nil, List.sum_nil, hnode, HTree.weight]
          omega
        · -- the leaf multiset is preserved by the merge
          refine htl.trans ?_
          have hs : ((x :: y :: (popMinAux c r1).2).map HTree.leaves).flatten.Perm
              ((a :: b :: rest).map HTree.leaves).flatten :=
            ((hperm.map HTree.leaves).symm).flatten
          refine List.Perm.trans ?_ hs
          simp only [hH2, List.map_append, List.flatten_append, List.map_cons,
            List.flatten_cons, List.map_nil, List.flatten_nil, List.append_nil,
            hnode, HTree.leaves]
          exact (List.perm_append_comm).trans (by rw [List.append_assoc])
        · -- well-formedness
          intro hall
          refine htwf ?_
          intro u hu
          rcases List.mem_append.1 (hH2 ▸ hu) with hu2 | hu2
          · exact hall u (hmem2 u hu2)
          · simp only [List.mem_singleton] at hu2
            subst hu2
            simp only [hnode, HTree.wf]
            rw [hall x hmemx, hall y hmemy]
            simp
        · -- internal count = leaf count - 1
          intro hall
          refine htc ?_
          intro u hu
          rcases List.mem_append.1 (hH2 ▸ hu) with hu2 | hu2
          · exact hall u (hmem2 u hu2)
          · simp only [List.mem_singleton] at hu2
            subst hu2
            have h1 := hall x hmemx
            have h2 := hall y hmemy
            simp only [hnode, HTree.internalCount, HTree.leafCount_internal]
            omega
        · -- depth bound
          intro hall
          refine htd ?_
          intro u hu
          rcases List.mem_append.1 (hH2 ▸ hu) with hu2 | hu2
          · exact hall u (hmem2 u hu2)
          · simp only [List.mem_singleton] at hu2
            subst hu2
            have h1 := hall x hmemx
            have h2 := hall y hmemy
            have h3 := HTree.leafCount_pos x
            have h4 := HTree.leafCount_pos y
            simp only [hnode, HTree.depth, HTree.leafCount_internal]
            omega

/-! ## Facts about the frequency table -/

theorem bumpKey_fst (t : List (Nat × Nat)) (c : Nat) :
    (bumpKey t c).map Prod.fst =
      if c ∈ t.map Prod.fst then t.map Prod.fst else t.map Prod.fst ++ [c] := by
  induction t with
  | nil => simp [bumpKey]
  | cons e rest ih =>
    obtain ⟨k, v⟩ := e
    by_cases h : k = c
    · subst h; simp [bumpKey]
    · have h' : ¬c = k := fun hh => h hh.symm
      simp only [bumpKey, if_neg h, List.map_cons, ih]
      by_cases hc : c ∈ rest.map Prod.fst
      · simp [hc, h']
      · simp [hc, h']

theorem foldl_bumpKey_fst_nodup (src : List Nat) :
    ∀ t : List (Nat × Nat), (t.map Prod.fst).Nodup →
      ((src.foldl bumpKey t).map Prod.fst).Nodup := by
  induction src with
  | nil => intro t h; simpa using h
  | cons c rest ih =>
    intro t h
    simp only [List.foldl_cons]
    refine ih (bumpKey t c) ?_
    rw [bumpKey_fst]
    by_cases hc : c ∈ t.map Prod.fst
    · simpa [hc] using h
    · simp [hc, List.nodup_append, h]

theorem foldl_bumpKey_fst_mem (src : List Nat) :
    ∀ (t : List (Nat × Nat)) (x : Nat),
      (x ∈ (src.foldl bumpKey t).map Prod.fst ↔ x ∈ t.map Prod.fst ∨ x ∈ src) := by
  induction src with
  | nil => intro t x; simp
  | cons c rest ih =>
    intro t x
    simp only [List.foldl_cons, ih (bumpKey t c) x, bumpKey_fst]
    by_cases hc : c ∈ t.map Prod.fst
    · simp only [if_pos hc, List.mem_cons]
      constructor
      · rintro (h | h)
        · exact Or.inl h
        · exact Or.inr (Or.inr h)
      · rintro (h | h | h)
        · exact Or.inl h
        · exact Or.inl (h ▸ hc)
        · exact Or.inr h
    · simp only [if_neg hc, List.mem_append, List.mem_singleton, List.mem_cons]
      tauto

theorem readTable_nodup (src : List Nat) :
    ((readTable src).map Prod.fst).Nodup :=
  foldl_bumpKey_fst_nodup src [] (by simp)

theorem readTable_mem (src : List Nat) (x : Nat) :
    x ∈ (readTable src).map Prod.fst ↔ x ∈ src := by
  have := foldl_bumpKey_fst_mem src [] x
  simpa [readTable] using this

theorem readTable_eq_nil (src : List Nat) : readTable src = [] ↔ src = [] := by
  constructor
  · intro h
    by_contra hs
    match src, hs with
    | c :: rest, _ =>
      have : c ∈ (readTable (c :: rest)).map Prod.fst :=
        (readTable_mem _ c).2 (by simp)
      rw [h] at this
      simp at this
  · intro h; subst h; rfl

theorem bumpKey_length_le (t : List (Nat × Nat)) (c : Nat) :
    (bumpKey t c).length ≤ t.length + 1 := by
  induction t with
  | nil => simp [bumpKey]
  | cons e rest ih =>
    obtain ⟨k, v⟩ := e
    by_cases h : k = c
    · simp [bumpKey, h]
    · simp only [bumpKey, if_neg h, List.length_cons]
      omega

theorem readTable_length_le (src : List Nat) :
    ∀ t : List (Nat × Nat), (src.foldl bumpKey t).length ≤ t.length + src.length := by
  induction src with
  | nil => intro t; simp
  | cons c rest ih =>
    intro t
    simp only [List.foldl_cons, List.length_cons]
    have h1 := ih (bumpKey t c)
    have h2 := bumpKey_length_le t c
    omega

/-! ## Facts about `dfs` and the generated code table -/

theorem dfs_shift (t : HTree) (bits : List Nat) :
    dfs t bits = (dfs t []).map (fun e => (e.1, bits ++ e.2)) := by
  induction t generalizing bits with
  | leaf s w => simp [dfs]
  | internal l r w ihl ihr =>
    show dfs l (bits ++ [48]) ++ dfs r (bits ++ [49]) =
      (dfs l [48] ++ dfs r [49]).map fun e => (e.1, bits ++ e.2)
    rw [ihl (bits ++ [48]), ihr (bits ++ [49]), ihl [48], ihr [49],
      List.map_append, List.map_map, List.map_map]
    congr 1
    · apply List.map_congr_left
      intro e _
      simp [Function.comp, List.append_assoc]
    · apply List.map_congr_left
      intro e _
      simp [Function.comp, List.append_assoc]

theorem dfs_fst (t : HTree) (bits : List Nat) :
    (dfs t bits).map Prod.fst = t.leaves := by
  induction t generalizing bits with
  | leaf s w => simp [dfs, HTree.leaves]
  | internal l r w ihl ihr => simp [dfs, HTree.leaves, ihl, ihr]

theorem dfs_code_binary (t : HTree) :
    ∀ bits, (∀ b ∈ bits, b = 48 ∨ b = 49) →
      ∀ e ∈ dfs t bits, ∀ b ∈ e.2, b = 48 ∨ b = 49 := by
  induction t with
  | leaf s w =>
    intro bits hb e he b hbe
    simp only [dfs, List.mem_singleton] at he
    subst he
    exact hb b hbe
  | internal l r w ihl ihr =>
    intro bits hb e he b hbe
    simp only [dfs, List.mem_append] at he
    rcases he with he | he
    · refine ihl (bits ++ [48]) ?_ e he b hbe
      intro x hx
      rcases List.mem_append.1 hx with h | h
      · exact hb x h
      · simp at h; simp [h]
    · refine ihr (bits ++ [49]) ?_ e he b hbe
      intro x hx
      rcases List.mem_append.1 hx with h | h
      · exact hb x h
      · simp at h; simp [h]

theorem dfs_code_length (t : HTree) :
    ∀ bits, ∀ e ∈ dfs t bits, e.2.length ≤ bits.length + t.depth := by
  induction t with
  | leaf s w =>
    intro bits e he
    simp only [dfs, List.mem_singleton] at he
    subst he
    simp [HTree.depth]
  | internal l r w ihl ihr =>
    intro bits e he
    simp only [dfs, List.mem_append] at he
    simp only [HTree.depth]
    rcases he with he | he
    · have := ihl (bits ++ [48]) e he
      simp only [List.length_append, List.length_singleton] at this
      omega
    · have := ihr (bits ++ [49]) e he
      simp only [List.length_append, List.length_singleton] at this
      omega

theorem dfs_code_ne_nil (l r : HTree) (w : Nat) :
    ∀ e ∈ generateHuffmanCode (HTree.internal l r w), e.2 ≠ [] := by
  intro e he
  simp only [generateHuffmanCode, dfs, List.mem_append] at he
  rcases he with he | he
  · rw [dfs_shift] at he
    obtain ⟨e0, _, rfl⟩ := List.mem_map.1 he
    simp
  · rw [dfs_shift] at he
    obtain ⟨e0, _, rfl⟩ := List.mem_map.1 he
    simp

/-- Codes of distinct leaves are mutually prefix-free: the central invariant
of the code table (codes are paths to distinct leaves). -/
theorem dfs_prefixFree (t : HTree) :
    ∀ e1 ∈ generateHuffmanCode t, ∀ e2 ∈ generateHuffmanCode t,
      e1.1 ≠ e2.1 → ¬ e1.2 <+: e2.2 := by
  induction t with
  | leaf s w =>
    intro e1 h1 e2 h2 hne
    simp only [generateHuffmanCode, dfs, List.mem_singleton] at h1 h2
    subst h1; subst h2
    simp at hne
  | internal l r w ihl ihr =>
    intro e1 h1 e2 h2 hne
    simp only [generateHuffmanCode, dfs, List.nil_append, List.mem_append] at h1 h2
    have hL : ∀ e, e ∈ dfs l [48] → ∃ e0 ∈ generateHuffmanCode l,
        e = (e0.1, 48 :: e0.2) := by
      intro e he
      rw [dfs_shift] at he
      obtain ⟨e0, he0, rfl⟩ := List.mem_map.1 he
      exact ⟨e0, he0, rfl⟩
    have hR : ∀ e, e ∈ dfs r [49] → ∃ e0 ∈ generateHuffmanCode r,
        e = (e0.1, 49 :: e0.2) := by
      intro e he
      rw [dfs_shift] at he
      obtain ⟨e0, he0, rfl⟩ := List.mem_map.1 he
      exact ⟨e0, he0, rfl⟩
    rcases h1 with h1 | h1 <;> rcases h2 with h2 | h2
    · obtain ⟨a, ha, rfl⟩ := hL e1 h1
      obtain ⟨b, hb, rfl⟩ := hL e2 h2
      intro hpre
      rcases List.cons_prefix_cons.1 hpre with ⟨-, hpre2⟩
      exact ihl a ha b hb hne hpre2
    · obtain ⟨a, ha, rfl⟩ := hL e1 h1
      obtain ⟨b, hb, rfl⟩ := hR e2 h2
      intro hpre
      rcases List.cons_prefix_cons.1 hpre with ⟨hhead, -⟩
      simp at hhead
    · obtain ⟨a, ha, rfl⟩ := hR e1 h1
      obtain ⟨b, hb, rfl⟩ := hL e2 h2
      intro hpre
      rcases List.cons_prefix_cons.1 hpre with ⟨hhead, -⟩
      simp at hhead
    · obtain ⟨a, ha, rfl⟩ := hR e1 h1
      obtain ⟨b, hb, rfl⟩ := hR e2 h2
      intro hpre
      rcases List.cons_prefix_cons.1 hpre with ⟨-, hpre2⟩
      exact ihr a ha b hb hne hpre2

/-! ## Consequences for `buildTree` -/

theorem map_leaf_flatten (table : List (Nat × Nat)) :
    ((table.map fun e => HTree.leaf e.1 e.2).map HTree.leaves).flatten =
      table.map Prod.fst := by
  induction table with
  | nil => rfl
  | cons e rest ih => simp [HTree.leaves, ← List.map_map, ih]

theorem map_leaf_weight (table : List (Nat × Nat)) :
    ((table.map fun e => HTree.leaf e.1 e.2).map HTree.weight).sum =
      (table.map Prod.snd).sum := by
  induction table with
  | nil => rfl
  | cons e rest ih => simp [HTree.weight, ← List.map_map, ih]

/-- The packaged facts about a successfully built tree. -/
theorem buildTree_facts (table : List (Nat × Nat)) (hne : table ≠ []) :
    ∃ t, buildTree table = some t ∧
      t.weight = (table.map Prod.snd).sum ∧
      t.leaves.Perm (table.map Prod.fst) ∧
      t.wf = true ∧
      t.internalCount + 1 = t.leafCount ∧
      t.depth + 1 ≤ t.leafCount := by
  have hmne : (table.map fun e => HTree.leaf e.1 e.2) ≠ [] := by
    simpa using hne
  have hlen : (table.map fun e => HTree.leaf e.1 e.2).length ≤ table.length + 1 := by
    simp
  obtain ⟨t, ht, hw, hl, hwf, hc, hd⟩ :=
    buildLoopN_master table.length _ hmne hlen
  refine ⟨t, ht, ?_, ?_, ?_, ?_, ?_⟩
  · rw [hw, map_leaf_weight]
  · rw [map_leaf_flatten] at hl; exact hl
  · refine hwf ?_
    intro u hu
    obtain ⟨e, _, rfl⟩ := List.mem_map.1 hu
    rfl
  · refine hc ?_
    intro u hu
    obtain ⟨e, _, rfl⟩ := List.mem_map.1 hu
    simp [HTree.internalCount, HTree.leafCount, HTree.leaves]
  · refine hd ?_
    intro u hu
    obtain ⟨e, _, rfl⟩ := List.mem_map.1 hu
    simp [HTree.depth, HTree.leafCount, HTree.leaves]

/-! ## The greedy bit-consumption loop of `decode`

`passFold` scans the whole reverse table once; because the codes are
mutually prefix-free, at most one entry can match at any position, so a
pass consumes a (possibly empty) prefix of the symbol stream — and a
non-empty one whenever the first symbol's entry is still ahead in the scan.
Conversely a pass that matches nothing leaves the state unchanged and the
outer `while` loop never terminates. -/

/-- Entries that can never fire leave `passFold` alone. -/
theorem passFold_stuck (T : List (List Nat × Nat)) (s out : List Nat)
    (h : ∀ e ∈ T, ¬e.1 <+: s) : passFold T s out = (s, out) := by
  induction T with
  | nil => rfl
  | cons e rest ih =>
    have he : ¬e.1.isPrefixOf s = true := by
      rw [List.isPrefixOf_iff_prefix]
      exact h e (by simp)
    simp only [passFold, if_neg he]
    exact ih fun e2 h2 => h e2 (by simp [h2])

/-- A stuck non-empty state makes the outer loop run forever. -/
theorem decodeLoop_stuck (T : List (List Nat × Nat)) (s : List Nat)
    (hs : s ≠ []) (h : ∀ e ∈ T, ¬e.1 <+: s) :
    ∀ fuel out, decodeLoop fuel T s out = none := by
  intro fuel
  induction fuel with
  | zero =>
    intro out
    match s, hs with
    | b :: bs, _ => rfl
  | succ n ih =>
    intro out
    match s, hs, h, ih with
    | b :: bs, _, h, ih =>
      show decodeLoop n T (passFold T (b :: bs) out).1 (passFold T (b :: bs) out).2
        = none
      rw [passFold_stuck T (b :: bs) out h]
      exact ih out

/-- In a mutually prefix-free table, two entries whose codes are comparable
under the prefix order are one and the same entry. -/
theorem pf_unique (T : List (List Nat × Nat))
    (hpf : T.Pairwise fun p q => ¬p.1 <+: q.1 ∧ ¬q.1 <+: p.1) :
    ∀ p ∈ T, ∀ q ∈ T, (p.1 <+: q.1 ∨ q.1 <+: p.1) → p = q := by
  induction T with
  | nil => intro p hp; simp at hp
  | cons e rest ih =>
    rcases List.pairwise_cons.1 hpf with ⟨he, hrest⟩
    intro p hp q hq hcomp
    rcases List.mem_cons.1 hp with hp1 | hp1
    · rcases List.mem_cons.1 hq with hq1 | hq1
      · rw [hp1, hq1]
      · rcases he q hq1 with ⟨h1, h2⟩
        rcases hcomp with h | h
        · rw [hp1] at h; exact absurd h h1
        · rw [hp1] at h; exact absurd h h2
    · rcases List.mem_cons.1 hq with hq1 | hq1
      · rcases he p hp1 with ⟨h1, h2⟩
        rcases hcomp with h | h
        · rw [hq1] at h; exact absurd h h2
        · rw [hq1] at h; exact absurd h h1
      · exact ih hrest p hp1 q hq1 hcomp

/-- One pass of the inner scan consumes a prefix of the symbol stream; the
prefix is non-empty whenever the stream's first entry lies in the part of
the table still to be scanned.  `cs` is the stream of (code, symbol) pairs
whose codes are concatenated in the remaining bit-string. -/
theorem passFold_progress (T : List (List Nat × Nat))
    (hpf : T.Pairwise fun p q => ¬p.1 <+: q.1 ∧ ¬q.1 <+: p.1)
    (hne : ∀ e ∈ T, e.1 ≠ []) :
    ∀ (E : List (List Nat × Nat)), (∀ e ∈ E, e ∈ T) →
    ∀ (cs : List (List Nat × Nat)), (∀ e ∈ cs, e ∈ T) →
    ∀ out : List Nat,
    ∃ cs1 cs2, cs = cs1 ++ cs2 ∧
      passFold E ((cs.map Prod.fst).flatten) out =
        ((cs2.map Prod.fst).flatten, out ++ cs1.map Prod.snd) ∧
      (∀ h0, cs.head? = some h0 → h0 ∈ E → cs1 ≠ []) := by
  intro E
  induction E with
  | nil =>
    intro _ cs _ out
    exact ⟨[], cs, rfl, by simp [passFold], by intro h0 _ hm; simp at hm⟩
  | cons e E' ih =>
    intro hEmem cs hcsmem out
    obtain ⟨v, c⟩ := e
    have hvT : (v, c) ∈ T := hEmem (v, c) (by simp)
    have hE'mem : ∀ e ∈ E', e ∈ T := fun e h => hEmem e (by simp [h])
    match cs, hcsmem with
    | [], _ =>
      have hnostart : ¬v.isPrefixOf ([] : List Nat) = true := by
        rw [List.isPrefixOf_iff_prefix, List.prefix_nil]
        exact hne (v, c) hvT
      obtain ⟨cs1, cs2, hsplit, hpass, -⟩ := ih hE'mem [] (by simp) out
      rcases List.append_eq_nil.1 hsplit.symm with ⟨rfl, rfl⟩
      refine ⟨[], [], rfl, ?_, by intro h0 hh hm; simp at hh⟩
      simp only [List.map_nil, List.flatten_nil, passFold, if_neg hnostart]
      simpa using hpass
    | (v0, c0) :: cs', hcsmem =>
      have h0T : (v0, c0) ∈ T := hcsmem (v0, c0) (by simp)
      have hcs'mem : ∀ e ∈ cs', e ∈ T := fun e h => hcsmem e (by simp [h])
      have hflat : (((v0, c0) :: cs').map Prod.fst).flatten =
          v0 ++ (cs'.map Prod.fst).flatten := by simp
      by_cases hmatch : v <+: (((v0, c0) :: cs').map Prod.fst).flatten
      · -- only the stream's own next code can match: consume it
        have heq : (v, c) = (v0, c0) := by
          refine pf_unique T hpf (v, c) hvT (v0, c0) h0T ?_
          rw [hflat] at hmatch
          exact List.prefix_or_prefix_of_prefix hmatch (List.prefix_append v0 _)
        have hv : v = v0 := congrArg Prod.fst heq
        have hc : c = c0 := congrArg Prod.snd heq
        have hpref : v.isPrefixOf ((((v0, c0) :: cs').map Prod.fst).flatten) = true := by
          rw [List.isPrefixOf_iff_prefix]; exact hmatch
        have hdrop : ((((v0, c0) :: cs').map Prod.fst).flatten).drop v.length =
            (cs'.map Prod.fst).flatten := by
          rw [hflat, hv, List.drop_left]
        obtain ⟨cs1', cs2', hsplit, hpass, -⟩ := ih hE'mem cs' hcs'mem (out ++ [c])
        refine ⟨(v0, c0) :: cs1', cs2', by rw [hsplit, List.cons_append], ?_, by simp⟩
        have hstep : passFold ((v, c) :: E')
            ((((v0, c0) :: cs').map Prod.fst).flatten) out =
            passFold E' ((cs'.map Prod.fst).flatten) (out ++ [c]) := by
          simp only [passFold, if_pos hpref, hdrop]
        rw [hstep, hpass, hc]
        simp
      · have hpref : ¬v.isPrefixOf ((((v0, c0) :: cs').map Prod.fst).flatten) = true := by
          rw [List.isPrefixOf_iff_prefix]; exact hmatch
        obtain ⟨cs1, cs2, hsplit, hpass, hprog⟩ :=
          ih hE'mem ((v0, c0) :: cs') hcsmem out
        refine ⟨cs1, cs2, hsplit, ?_, ?_⟩
        · simp only [passFold, if_neg hpref, hpass]
        · intro h0 hh hm
          have hh0 : (v0, c0) = h0 := by simpa using hh
          rcases List.mem_cons.1 hm with hvc | hm2
          · exfalso
            apply hmatch
            rw [hflat]
            have hveq : v = v0 := by
              have h1 : (v0, c0) = (v, c) := hh0.trans hvc
              exact (congrArg Prod.fst h1).symm
            rw [hveq]
            exact List.prefix_append v0 _
          · exact hprog h0 hh hm2

/-- Correctness of the greedy loop: decoding the concatenated codes of a
symbol stream whose entries all lie in a mutually prefix-free table of
non-empty codes emits exactly that stream, given at least one unit of fuel
per symbol (each pass consumes at least one symbol). -/
theorem decodeLoop_decodes (T : List (List Nat × Nat))
    (hpf : T.Pairwise fun p q => ¬p.1 <+: q.1 ∧ ¬q.1 <+: p.1)
    (hne : ∀ e ∈ T, e.1 ≠ []) :
    ∀ (fuel : Nat) (cs : List (List Nat × Nat)), (∀ e ∈ cs, e ∈ T) →
    cs.length ≤ fuel → ∀ out : List Nat,
    decodeLoop fuel T ((cs.map Prod.fst).flatten) out =
      some (out ++ cs.map Prod.snd) := by
  intro fuel
  induction fuel with
  | zero =>
    intro cs _ hlen out
    rcases List.length_eq_zero.1 (Nat.le_zero.1 hlen) with rfl
    simp [decodeLoop]
  | succ n ih =>
    intro cs hmem hlen out
    match cs, hmem, hlen with
    | [], _, _ => simp [decodeLoop]
    | (v0, c0) :: cs', hmem, hlen =>
      have h0T : (v0, c0) ∈ T := hmem (v0, c0) (by simp)
      have hv0 : v0 ≠ [] := hne (v0, c0) h0T
      obtain ⟨cs1, cs2, hsplit, hpass, hprog⟩ :=
        passFold_progress T hpf hne T (fun e h => h) ((v0, c0) :: cs') hmem out
      have hcs1 : cs1 ≠ [] := hprog (v0, c0) rfl h0T
      have hsne : (((v0, c0) :: cs').map Prod.fst).flatten ≠ [] := by
        simp only [List.map_cons, List.flatten_cons]
        intro hcontra
        exact hv0 (List.append_eq_nil.1 hcontra).1
      have hstep : decodeLoop (n + 1) T ((((v0, c0) :: cs').map Prod.fst).flatten) out
          = decodeLoop n T ((cs2.map Prod.fst).flatten) (out ++ cs1.map Prod.snd) := by
        match hs : (((v0, c0) :: cs').map Prod.fst).flatten, hsne with
        | b :: bs, _ =>
          show decodeLoop n T (passFold T (b :: bs) out).1
              (passFold T (b :: bs) out).2 = _
          rw [← hs, hpass]
      rw [hstep]
      have hlen2 : cs2.length ≤ n := by
        have h1 : ((v0, c0) :: cs').length = cs1.length + cs2.length := by
          rw [hsplit, List.length_append]
        have h2 : 1 ≤ cs1.length := by
          rcases cs1 with - | ⟨x, xs⟩
          · exact absurd rfl hcs1
          · simp
        simp only [List.length_cons] at h1 hlen
        omega
      have hmem2 : ∀ e ∈ cs2, e ∈ T := by
        intro e h
        exact hmem e (by rw [hsplit]; exact List.mem_append.2 (Or.inr h))
      rw [ih cs2 hmem2 hlen2 (out ++ cs1.map Prod.snd)]
      rw [hsplit]
      simp

/-! ## UTF-8 round-trip facts -/

theorem utf8Encode_length_pos (c : Nat) : 1 ≤ (utf8Encode c).length := by
  unfold utf8Encode
  split
  · simp
  · split
    · simp
    · split
      · simp
      · simp

theorem utf8Encode_length_le (c : Nat) : (utf8Encode c).length ≤ 4 := by
  unfold utf8Encode
  split
  · simp
  · split
    · simp
    · split
      · simp
      · simp

theorem utf8Encode_lt256 (c : Nat) (h : c < 0x110000) :
    ∀ b ∈ utf8Encode c, b < 256 := by
  intro b hb
  unfold utf8Encode at hb
  split at hb
  · simp at hb; omega
  · split at hb
    · simp at hb
      rcases hb with h1 | h1 <;> omega
    · split at hb
      · simp at hb
        rcases hb with h1 | h1 | h1 <;> omega
      · simp at hb
        rcases hb with h1 | h1 | h1 | h1 <;> omega

theorem utf8DecodeFirst_encode (c : Nat) (h : validScalar c) (rest : List Nat) :
    utf8DecodeFirst (utf8Encode c ++ rest) = some (c, (utf8Encode c).length) := by
  have hmax : c < 0x110000 := by
    rcases h with h | h
    · omega
    · omega
  by_cases h1 : c < 0x80
  · simp [utf8Encode, utf8DecodeFirst, h1]
  · by_cases h2 : c < 0x800
    · have e1 : utf8Encode c = [0xC0 + c / 64, 0x80 + c % 64] := by
        simp [utf8Encode, h1, h2]
      rw [e1]
      have hb0a : ¬(0xC0 + c / 64) < 0x80 := by omega
      have hb0b : ¬(0xC0 + c / 64) < 0xC2 := by omega
      have hb0c : (0xC0 + c / 64) < 0xE0 := by omega
      have hb1 : isContByte (0x80 + c % 64) = true := by
        simp only [isContByte, Bool.and_eq_true, decide_eq_true_eq]
        omega
      simp only [List.cons_append, List.nil_append, utf8DecodeFirst,
        if_neg hb0a, if_neg hb0b, if_pos hb0c, hb1, if_true,
        List.length_cons, List.length_nil, Option.some.injEq, Prod.mk.injEq,
        and_true, true_and]
      all_goals omega
    · by_cases h3 : c < 0x10000
      · have e1 : utf8Encode c =
            [0xE0 + c / 4096, 0x80 + c / 64 % 64, 0x80 + c % 64] := by
          simp [utf8Encode, h1, h2, h3]
        rw [e1]
        have hb0a : ¬(0xE0 + c / 4096) < 0x80 := by omega
        have hb0b : ¬(0xE0 + c / 4096) < 0xC2 := by omega
        have hb0c : ¬(0xE0 + c / 4096) < 0xE0 := by omega
        have hb0d : (0xE0 + c / 4096) < 0xF0 := by omega
        have hb1 : isContByte (0x80 + c / 64 % 64) = true := by
          simp only [isContByte, Bool.and_eq_true, decide_eq_true_eq]
          omega
        have hb2 : isContByte (0x80 + c % 64) = true := by
          simp only [isContByte, Bool.and_eq_true, decide_eq_true_eq]
          omega
        have hv : (0xE0 + c / 4096 - 0xE0) * 4096 +
            (0x80 + c / 64 % 64 - 0x80) * 64 + (0x80 + c % 64 - 0x80) = c := by
          omega
        have hcond : 0x800 ≤ c ∧ ¬(0xD800 ≤ c ∧ c < 0xE000) := by
          rcases h with h | h
          · exact ⟨by omega, by omega⟩
          · exact ⟨by omega, by omega⟩
        simp only [List.cons_append, List.nil_append, utf8DecodeFirst,
          if_neg hb0a, if_neg hb0b, if_neg hb0c, if_pos hb0d, hb1, hb2,
          Bool.and_self, if_true, hv, if_pos hcond, List.length_cons,
          List.length_nil, Option.some.injEq, Prod.mk.injEq]
      · have e1 : utf8Encode c = [0xF0 + c / 262144, 0x80 + c / 4096 % 64,
            0x80 + c / 64 % 64, 0x80 + c % 64] := by
          simp [utf8Encode, h1, h2, h3]
        rw [e1]
        have hb0a : ¬(0xF0 + c / 262144) < 0x80 := by omega
        have hb0b : ¬(0xF0 + c / 262144) < 0xC2 := by omega
        have hb0c : ¬(0xF0 + c / 262144) < 0xE0 := by omega
        have hb0d : ¬(0xF0 + c / 262144) < 0xF0 := by omega
        have hb0e : (0xF0 + c / 262144) < 0xF5 := by omega
        have hb1 : isContByte (0x80 + c / 4096 % 64) = true := by
          simp only [isContByte, Bool.and_eq_true, decide_eq_true_eq]
          omega
        have hb2 : isContByte (0x80 + c / 64 % 64) = true := by
          simp only [isContByte, Bool.and_eq_true, decide_eq_true_eq]
          omega
        have hb3 : isContByte (0x80 + c % 64) = true := by
          simp only [isContByte, Bool.and_eq_true, decide_eq_true_eq]
          omega
        have hv : (0xF0 + c / 262144 - 0xF0) * 262144 +
            (0x80 + c / 4096 % 64 - 0x80) * 4096 +
            (0x80 + c / 64 % 64 - 0x80) * 64 + (0x80 + c % 64 - 0x80) = c := by
          omega
        have hcond : 0x10000 ≤ c ∧ c < 0x110000 := ⟨by omega, hmax⟩
        simp only [List.cons_append, List.nil_append, utf8DecodeFirst,
          if_neg hb0a, if_neg hb0b, if_neg hb0c, if_neg hb0d, if_pos hb0e,
          hb1, hb2, hb3, Bool.and_self, if_true, hv, if_pos hcond,
          List.length_cons, List.length_nil, Option.some.injEq, Prod.mk.injEq]

theorem utf8DecodeAllAux_nil (fuel : Nat) : utf8DecodeAllAux fuel [] = some [] := by
  cases fuel
  · rfl
  · rfl

theorem utf8DecodeAll_encode (c : Nat) (h : validScalar c) :
    utf8DecodeAll (utf8Encode c) = some [c] := by
  have hfirst := utf8DecodeFirst_encode c h []
  rw [List.append_nil] at hfirst
  obtain ⟨b, bs, hE⟩ : ∃ b bs, utf8Encode c = b :: bs := by
    cases hEnc : utf8Encode c with
    | nil =>
      have := utf8Encode_length_pos c
      rw [hEnc] at this
      simp at this
    | cons b bs => exact ⟨b, bs, rfl⟩
  rw [hE] at hfirst ⊢
  show utf8DecodeAllAux (bs.length + 1) (b :: bs) = some [c]
  have hdrop : (b :: bs).drop (bs.length + 1) = [] := by
    have h0 := List.drop_length (b :: bs)
    rw [List.length_cons] at h0
    exact h0
  simp only [utf8DecodeAllAux, hfirst, List.length_cons, hdrop,
    utf8DecodeAllAux_nil]

theorem utf8DecodeAllAux_ascii :
    ∀ (fuel : Nat) (l : List Nat), l.length ≤ fuel → (∀ b ∈ l, b < 0x80) →
      utf8DecodeAllAux fuel l = some l := by
  intro fuel
  induction fuel with
  | zero =>
    intro l hl _
    rcases List.length_eq_zero.1 (Nat.le_zero.1 hl) with rfl
    rfl
  | succ n ih =>
    intro l hl hb
    match l, hl, hb with
    | [], _, _ => rfl
    | b :: bs, hl, hb =>
      have hb0 : b < 0x80 := hb b (by simp)
      have hfirst : utf8DecodeFirst (b :: bs) = some (b, 1) := by
        simp [utf8DecodeFirst, hb0]
      have hrec : utf8DecodeAllAux n bs = some bs := by
        refine ih bs ?_ fun x hx => hb x (by simp [hx])
        simp only [List.length_cons] at hl
        omega
      simp only [utf8DecodeAllAux, hfirst, List.drop_one, List.tail_cons, hrec]

theorem utf8DecodeAll_ascii (l : List Nat) (hb : ∀ b ∈ l, b < 0x80) :
    utf8DecodeAll l = some l :=
  utf8DecodeAllAux_ascii l.length l (le_refl _) hb

/-! ## Bit-packing round trip -/

theorem toBin8_bitsToByte (chunk : List Nat) (hlen : chunk.length = 8)
    (hb : ∀ b ∈ chunk, b = 48 ∨ b = 49) :
    toBin8 (bitsToByte chunk) = chunk := by
  match chunk, hlen with
  | [a, b, c, d, e, f, g, h], _ =>
    have ha := hb a (by simp)
    have hb1 := hb b (by simp)
    have hc := hb c (by simp)
    have hd := hb d (by simp)
    have he := hb e (by simp)
    have hf := hb f (by simp)
    have hg := hb g (by simp)
    have hh := hb h (by simp)
    rcases ha with rfl | rfl <;> rcases hb1 with rfl | rfl <;>
      rcases hc with rfl | rfl <;> rcases hd with rfl | rfl <;>
      rcases he with rfl | rfl <;> rcases hf with rfl | rfl <;>
      rcases hg with rfl | rfl <;> rcases hh with rfl | rfl <;> rfl

theorem chunks8_unpack :
    ∀ (n : Nat) (l : List Nat), l.length ≤ n → l.length % 8 = 0 →
    (∀ b ∈ l, b = 48 ∨ b = 49) →
    ((chunks8 l).map fun ch => toBin8 (bitsToByte ch)).flatten = l := by
  intro n
  induction n with
  | zero =>
    intro l hn _ _
    rcases List.length_eq_zero.1 (Nat.le_zero.1 hn) with rfl
    rfl
  | succ n ih =>
    intro l hn hmod hb
    rcases l with - | ⟨a, l⟩
    · rfl
    rcases l with - | ⟨b, l⟩
    · simp at hmod
    rcases l with - | ⟨c, l⟩
    · simp at hmod
    rcases l with - | ⟨d, l⟩
    · simp at hmod
    rcases l with - | ⟨e, l⟩
    · simp at hmod
    rcases l with - | ⟨f, l⟩
    · simp at hmod
    rcases l with - | ⟨g, l⟩
    · simp at hmod
    rcases l with - | ⟨h, rest⟩
    · simp at hmod
    have hchunks : chunks8 (a :: b :: c :: d :: e :: f :: g :: h :: rest) =
        [a, b, c, d, e, f, g, h] :: chunks8 rest := rfl
    have hrlen : rest.length ≤ n := by
      simp only [List.length_cons] at hn
      omega
    have hrmod : rest.length % 8 = 0 := by
      simp only [List.length_cons] at hmod
      omega
    have hrb : ∀ x ∈ rest, x = 48 ∨ x = 49 := by
      intro x hx
      exact hb x (by simp [hx])
    have hcb : ∀ x ∈ [a, b, c, d, e, f, g, h], x = 48 ∨ x = 49 := by
      intro x hx
      simp only [List.mem_cons, List.not_mem_nil, or_false] at hx
      rcases hx with rfl | rfl | rfl | rfl | rfl | rfl | rfl | rfl <;>
        exact hb x (by simp)
    rw [hchunks]
    simp only [List.map_cons, List.flatten_cons,
      toBin8_bitsToByte [a, b, c, d, e, f, g, h] (by simp) hcb,
      ih rest hrlen hrmod hrb]
    rfl

theorem padZeros_mod (l : List Nat) : (padZeros l).length % 8 = 0 := by
  simp only [padZeros, List.length_append, List.length_replicate]
  omega

theorem padZeros_eq_self (l : List Nat) (h : l.length % 8 = 0) :
    padZeros l = l := by
  simp [padZeros, h]

theorem padZeros_binary (l : List Nat) (hb : ∀ b ∈ l, b = 48 ∨ b = 49) :
    ∀ b ∈ padZeros l, b = 48 ∨ b = 49 := by
  intro b hbm
  rcases List.mem_append.1 hbm with h | h
  · exact hb b h
  · left
    exact List.eq_of_mem_replicate h

theorem be32val_be32 (n : Nat) (h : n < 2 ^ 32) (rest : List Nat) :
    be32val (be32 n ++ rest) = n := by
  simp only [be32, be32val, List.cons_append]
  omega

/-! ## Parsing the serialized code table -/

theorem insertReplace_notmem (t : List (List Nat × Nat)) (k : List Nat) (v : Nat)
    (h : k ∉ t.map Prod.fst) : insertReplace t k v = t ++ [(k, v)] := by
  induction t with
  | nil => rfl
  | cons e rest ih =>
    simp only [List.map_cons, List.mem_cons, not_or] at h
    have hne : ¬e.1 = k := fun hh => h.1 hh.symm
    simp only [insertReplace, if_neg hne, List.cons_append]
    rw [ih h.2]

theorem insertAll_revTable (tbl : List (Nat × List Nat)) :
    ∀ acc : List (List Nat × Nat),
      (∀ e ∈ tbl, e.2 ∉ acc.map Prod.fst) →
      (tbl.map Prod.snd).Nodup →
      insertAll acc tbl = acc ++ revTable tbl := by
  induction tbl with
  | nil => intro acc _ _; simp [insertAll, revTable]
  | cons e tbl' ih =>
    intro acc hacc hnd
    obtain ⟨s, code⟩ := e
    have h1 : code ∉ acc.map Prod.fst := hacc (s, code) (by simp)
    have hstep : insertAll acc ((s, code) :: tbl') =
        insertAll (insertReplace acc code s) tbl' := rfl
    rw [hstep, insertReplace_notmem acc code s h1]
    rcases List.pairwise_cons.1 hnd with ⟨hhead, htail⟩
    rw [ih (acc ++ [(code, s)]) ?_ htail]
    · simp [revTable]
    · intro e2 he2
      simp only [List.map_append, List.mem_append, List.map_cons, List.map_nil,
        List.mem_singleton, not_or]
      refine ⟨fun hm => hacc e2 (by simp [he2]) hm, ?_⟩
      intro hm
      exact hhead e2.2 (List.mem_map.2 ⟨e2, he2, rfl⟩) hm.symm

theorem serializeEntry_length (s : Nat) (code : List Nat) :
    (serializeEntry (s, code)).length = 2 + (utf8Encode s).length + code.length := by
  simp only [serializeEntry, List.length_append, List.length_cons,
    List.length_nil]
  omega

/-- Parsing the serialized table entries recovers exactly the reverse
insertions, consuming exactly the serialized bytes. -/
theorem parseTableAux_ser :
    ∀ (tbl : List (Nat × List Nat)) (fuel len : Nat) (rest : List Nat)
      (acc : List (List Nat × Nat)),
      (∀ e ∈ tbl, validScalar e.1) →
      (∀ e ∈ tbl, e.2.length ≤ 255) →
      (∀ e ∈ tbl, ∀ b ∈ e.2, b < 0x80) →
      tbl.length < fuel →
      parseTableAux fuel (len + (serializeTable tbl).length) len
        (serializeTable tbl ++ rest) acc = .ok (insertAll acc tbl) rest := by
  intro tbl
  induction tbl with
  | nil =>
    intro fuel len rest acc _ _ _ hfuel
    match fuel, hfuel with
    | f + 1, _ =>
      have hser : serializeTable [] = [] := rfl
      simp [parseTableAux, hser, insertAll]
  | cons e tbl' ih =>
    intro fuel len rest acc hvs hlen255 hascii hfuel
    obtain ⟨s, code⟩ := e
    match fuel, hfuel with
    | f + 1, hfuel =>
      have hvs0 : validScalar s := hvs (s, code) (by simp)
      have hl0 : code.length ≤ 255 := hlen255 (s, code) (by simp)
      have ha0 : ∀ b ∈ code, b < 0x80 := hascii (s, code) (by simp)
      have hklen : (utf8Encode s).length % 256 = (utf8Encode s).length := by
        have := utf8Encode_length_le s
        omega
      have hvlen : code.length % 256 = code.length := by omega
      have hser : serializeTable ((s, code) :: tbl') ++ rest =
          ((utf8Encode s).length % 256) ::
            (utf8Encode s ++ ((code.length % 256) ::
              (code ++ (serializeTable tbl' ++ rest)))) := by
        simp [serializeTable, serializeEntry, List.append_assoc]
      have hpos : 0 < (serializeTable ((s, code) :: tbl')).length := by
        have : serializeTable ((s, code) :: tbl') =
            serializeEntry (s, code) ++ serializeTable tbl' := by
          simp [serializeTable]
        rw [this, List.length_append, serializeEntry_length s code]
        omega
      have hcond : len < len + (serializeTable ((s, code) :: tbl')).length := by
        omega
      have hb1len : ¬(utf8Encode s ++ (code.length ::
          (code ++ (serializeTable tbl' ++ rest)))).length < (utf8Encode s).length := by
        simp only [List.length_append, List.length_cons]
        omega
      have hb3len : ¬(code ++ (serializeTable tbl' ++ rest)).length < code.length := by
        simp only [List.length_append]
        omega
      rw [hser]
      show parseTableAux (f + 1) _ len _ acc = _
      rw [parseTableAux]
      simp only [if_pos hcond, hklen, if_neg hb1len, List.take_left,
        utf8DecodeAll_encode s hvs0, List.drop_left, hvlen, if_neg hb3len,
        utf8DecodeAll_ascii code ha0]
      have harg : len + 1 + (utf8Encode s).length + 1 + code.length =
          (len + (serializeEntry (s, code)).length) := by
        rw [serializeEntry_length s code]
        omega
      have htot : len + (serializeTable ((s, code) :: tbl')).length =
          (len + (serializeEntry (s, code)).length) +
            (serializeTable tbl').length := by
        have : serializeTable ((s, code) :: tbl') =
            serializeEntry (s, code) ++ serializeTable tbl' := by
          simp [serializeTable]
        rw [this, List.length_append]
        omega
      rw [harg, htot]
      have hrec := ih f (len + (serializeEntry (s, code)).length) rest
        (insertReplace acc code s)
        (fun e2 h2 => hvs e2 (by simp [h2]))
        (fun e2 h2 => hlen255 e2 (by simp [h2]))
        (fun e2 h2 => hascii e2 (by simp [h2]))
        (by simp only [List.length_cons] at hfuel; omega)
      rw [hrec]
      rfl

/-! ## The encode pipeline -/

theorem lookupCode_mem (table : List (Nat × List Nat)) (c : Nat) (v : List Nat)
    (h : lookupCode table c = some v) : (c, v) ∈ table := by
  induction table with
  | nil => simp [lookupCode] at h
  | cons e rest ih =>
    by_cases he : e.1 = c
    · simp only [lookupCode, if_pos he] at h
      have hv : e.2 = v := Option.some_inj.1 h
      have hev : e = (c, v) := by
        rw [Prod.ext_iff]
        exact ⟨he, hv⟩
      rw [← hev]
      exact List.mem_cons_self e rest
    · simp only [lookupCode, if_neg he] at h
      exact List.mem_cons.2 (Or.inr (ih h))

theorem lookupCode_isSome (table : List (Nat × List Nat)) (c : Nat)
    (h : c ∈ table.map Prod.fst) : ∃ v, lookupCode table c = some v := by
  induction table with
  | nil => simp at h
  | cons e rest ih =>
    rw [List.map_cons, List.mem_cons] at h
    by_cases he : e.1 = c
    · exact ⟨e.2, by simp [lookupCode, he]⟩
    · rcases h with h1 | h1
      · exact absurd h1.symm he
      · obtain ⟨v, hv⟩ := ih h1
        exact ⟨v, by simp [lookupCode, he, hv]⟩

theorem codeConcat_eq (table : List (Nat × List Nat)) :
    ∀ src : List Nat, (∀ c ∈ src, c ∈ table.map Prod.fst) →
      codeConcat table src = some ((src.map (codeOf table)).flatten) := by
  intro src
  induction src with
  | nil => intro _; rfl
  | cons c rest ih =>
    intro hcov
    obtain ⟨v, hv⟩ := lookupCode_isSome table c (hcov c (by simp))
    have hrest := ih fun x hx => hcov x (by simp [hx])
    simp only [codeConcat, hv, hrest, List.map_cons, List.flatten_cons,
      codeOf, Option.getD_some]

/-- A non-empty source always encodes successfully, to the header followed
by the packed payload. -/
theorem encode_ok (src : List Nat) (hne : src ≠ []) :
    ∃ t, buildTree (readTable src) = some t ∧
      codeTableOf src = generateHuffmanCode t ∧
      encode src = .ok (writeHeader (generateHuffmanCode t) ++
        (chunks8 (padZeros (encodedBits src))).map bitsToByte) := by
  have htne : readTable src ≠ [] := fun h => hne ((readTable_eq_nil src).1 h)
  obtain ⟨t, ht, -, hleaves, -, -, -⟩ := buildTree_facts (readTable src) htne
  have hct : codeTableOf src = generateHuffmanCode t := by
    simp [codeTableOf, ht]
  have hcov : ∀ c ∈ src, c ∈ (generateHuffmanCode t).map Prod.fst := by
    intro c hc
    rw [generateHuffmanCode, dfs_fst]
    exact hleaves.mem_iff.2 ((readTable_mem src c).2 hc)
  have hcc := codeConcat_eq (generateHuffmanCode t) src hcov
  refine ⟨t, ht, hct, ?_⟩
  simp only [encode, ht, encodeContent, hcc, encodedBits, hct]

/-- Distinct symbols (Nodup leaves) force distinct codes. -/
theorem codes_nodup (t : HTree) (hnd : t.leaves.Nodup) :
    ((generateHuffmanCode t).map Prod.snd).Nodup := by
  have hfst : ((generateHuffmanCode t).map Prod.fst).Nodup := by
    rw [generateHuffmanCode, dfs_fst]
    exact hnd
  have hpw1 : (generateHuffmanCode t).Pairwise fun p q => p.1 ≠ q.1 :=
    (List.pairwise_map).1 hfst
  have hpw2 : (generateHuffmanCode t).Pairwise fun p q => p.2 ≠ q.2 := by
    refine hpw1.imp_of_mem ?_
    intro p q hp hq hne12 heq
    exact dfs_prefixFree t p hp q hq hne12 (heq ▸ List.prefix_refl p.2)
  exact (List.pairwise_map).2 hpw2

/-- The mutual prefix-freeness hypothesis of the greedy-decode lemmas, for
the reverse table of a generated code table. -/
theorem revTable_pairwise (t : HTree) (hnd : t.leaves.Nodup) :
    (revTable (generateHuffmanCode t)).Pairwise
      fun p q => ¬p.1 <+: q.1 ∧ ¬q.1 <+: p.1 := by
  have hfst : ((generateHuffmanCode t).map Prod.fst).Nodup := by
    rw [generateHuffmanCode, dfs_fst]
    exact hnd
  have hpw1 : (generateHuffmanCode t).Pairwise fun p q => p.1 ≠ q.1 :=
    (List.pairwise_map).1 hfst
  have hpw2 : (generateHuffmanCode t).Pairwise
      fun p q => ¬p.2 <+: q.2 ∧ ¬q.2 <+: p.2 := by
    refine hpw1.imp_of_mem ?_
    intro p q hp hq hne12
    exact ⟨dfs_prefixFree t p hp q hq hne12,
      dfs_prefixFree t q hq p hp (Ne.symm hne12)⟩
  exact (List.pairwise_map).2 hpw2

theorem serializeTable_length_le (tbl : List (Nat × List Nat))
    (h : ∀ e ∈ tbl, e.2.length ≤ 255) :
    (serializeTable tbl).length ≤ 261 * tbl.length := by
  induction tbl with
  | nil => simp [serializeTable]
  | cons e tbl' ih =>
    obtain ⟨s, code⟩ := e
    have hcons : serializeTable ((s, code) :: tbl') =
        serializeEntry (s, code) ++ serializeTable tbl' := by
      simp [serializeTable]
    rw [hcons, List.length_append, serializeEntry_length s code]
    have h1 := utf8Encode_length_le s
    have h2 : code.length ≤ 255 := h (s, code) (by simp)
    have h3 := ih fun e2 h2 => h e2 (by simp [h2])
    simp only [List.length_cons]
    omega

theorem serializeTable_length_ge (tbl : List (Nat × List Nat)) :
    2 * tbl.length ≤ (serializeTable tbl).length := by
  induction tbl with
  | nil => simp [serializeTable]
  | cons e tbl' ih =>
    obtain ⟨s, code⟩ := e
    have hcons : serializeTable ((s, code) :: tbl') =
        serializeEntry (s, code) ++ serializeTable tbl' := by
      simp [serializeTable]
    rw [hcons, List.length_append, serializeEntry_length s code]
    simp only [List.length_cons]
    omega

theorem chunks8_props :
    ∀ (n : Nat) (l : List Nat), l.length ≤ n → l.length % 8 = 0 →
    ∀ ch ∈ chunks8 l, ch.length = 8 := by
  intro n
  induction n with
  | zero =>
    intro l hn _ ch hch
    rcases List.length_eq_zero.1 (Nat.le_zero.1 hn) with rfl
    simp [chunks8] at hch
  | succ n ih =>
    intro l hn hmod ch hch
    rcases l with - | ⟨a, l⟩
    · simp [chunks8] at hch
    rcases l with - | ⟨b, l⟩
    · simp at hmod
    rcases l with - | ⟨c, l⟩
    · simp at hmod
    rcases l with - | ⟨d, l⟩
    · simp at hmod
    rcases l with - | ⟨e, l⟩
    · simp at hmod
    rcases l with - | ⟨f, l⟩
    · simp at hmod
    rcases l with - | ⟨g, l⟩
    · simp at hmod
    rcases l with - | ⟨h, rest⟩
    · simp at hmod
    have hchunks : chunks8 (a :: b :: c :: d :: e :: f :: g :: h :: rest) =
        [a, b, c, d, e, f, g, h] :: chunks8 rest := rfl
    rw [hchunks] at hch
    rcases List.mem_cons.1 hch with rfl | hch2
    · rfl
    · refine ih rest ?_ ?_ ch hch2
      · simp only [List.length_cons] at hn
        omega
      · simp only [List.length_cons] at hmod
        omega

theorem bitsToByte_eq_specPack (chunk : List Nat) (hlen : chunk.length = 8) :
    bitsToByte chunk = specPackChunk chunk := by
  match chunk, hlen with
  | [a, b, c, d, e, f, g, h], _ =>
    simp only [bitsToByte, List.foldl_cons, List.foldl_nil, specPackChunk,
      List.enum, List.enumFrom, List.map_cons, List.map_nil, List.sum_cons,
      List.sum_nil]
    omega

/-! ## Claim theorems -/

/-- C5: the byte sequence produced by `encode` is exactly the spec-side
container: the magic "HUFF", a 4-byte big-endian table byte length, the
entries (1-byte symbol length, symbol UTF-8 bytes, 1-byte code length, code
ASCII bytes), then the source's concatenated codes zero-padded to a byte
boundary and packed 8 bits per byte most-significant bit first. -/
theorem c5_container_layout (src : List Nat) (hne : src ≠ []) :
    encode src = .ok (specContainer (codeTableOf src) src) := by
  obtain ⟨t, ht, hct, henc⟩ := encode_ok src hne
  rw [henc, hct]
  have hentries : ((generateHuffmanCode t).map fun e =>
      [(utf8Encode e.1).length % 256] ++ (utf8Encode e.1 ++
        ([e.2.length % 256] ++ e.2))).flatten =
      serializeTable (generateHuffmanCode t) := by
    rw [serializeTable]
    refine congrArg List.flatten (List.map_congr_left ?_)
    intro e _
    simp [serializeEntry]
  have hbits : ((src.map fun c => codeOf (generateHuffmanCode t) c).flatten) =
      encodedBits src := by
    rw [encodedBits, hct]
  have hpack : (chunks8 (padZeros (encodedBits src))).map bitsToByte =
      (chunks8 (padZeros (encodedBits src))).map specPackChunk := by
    refine List.map_congr_left ?_
    intro ch hch
    exact bitsToByte_eq_specPack ch
      (chunks8_props (padZeros (encodedBits src)).length _ (le_refl _)
        (padZeros_mod _) ch hch)
  simp only [specContainer, hentries, hbits, writeHeader, hpack,
    List.append_assoc]

/-- Witness for C5 on the two-character source "ab". -/
theorem c5_container_layout_witness :
    encode [97, 98] = .ok (specContainer (codeTableOf [97, 98]) [97, 98]) :=
  c5_container_layout [97, 98] (by decide)

/-- C6 (corrected): on any input whose first 4 bytes are not "HUFF",
`decode` prints a message and returns `Ok(())` — the `badMagic` outcome: it
aborts cleanly, never writes or creates the destination file, and does not
crash, but no error value is returned to the caller. -/
theorem c6_bad_magic_clean_abort (buf : List Nat) (hlen : 4 ≤ buf.length)
    (hmagic : buf.take 4 ≠ magicBytes) :
    ∀ fuel, decode fuel buf = some .badMagic := by
  intro fuel
  have h4 : ¬buf.length < 4 := by omega
  simp [decode, h4, hmagic]

/-- Witness for C6 on a 5-byte input of zeros. -/
theorem c6_bad_magic_clean_abort_witness :
    decode 3 [0, 0, 0, 0, 5] = some .badMagic :=
  c6_bad_magic_clean_abort [0, 0, 0, 0, 5] (by decide) (by decide) 3

/-- Counterexample to C6 as stated: the claim says a format error is
reported to the caller, but the bad-magic outcome is `badMagic` — the
function returns `Ok(())` after printing — and in particular not the
`errReturn` outcome that models an `Err` value reaching the caller. -/
theorem c6_bad_magic_counterexample :
    decode 1 [0, 0, 0, 0] = some .badMagic ∧
    DecodeOutcome.badMagic.returnsErr = false := ⟨rfl, rfl⟩

/-- C7 (corrected): inside the real `encode`, every source character has an
entry in the freshly generated code table, so `encode_content` never hits
its missing-symbol branch and encoding of any non-empty source succeeds. -/
theorem c7_missing_symbol_unreachable (src : List Nat) (hne : src ≠ []) :
    ∃ bytes, encode src = .ok bytes := by
  obtain ⟨t, -, -, henc⟩ := encode_ok src hne
  exact ⟨_, henc⟩

/-- Witness for C7 on the source "aba". -/
theorem c7_missing_symbol_unreachable_witness :
    ∃ bytes, encode [97, 98, 97] = .ok bytes :=
  c7_missing_symbol_unreachable [97, 98, 97] (by decide)

/-- Counterexample to C7 as stated: when a source character (here 'b') has
no entry in the code table, `encode_content` does not return an encoding
error to the caller — it panics (`table[&c]` indexing a missing key), which
the model renders as `none`. -/
theorem c7_missing_symbol_counterexample :
    encodeContent [(97, [48])] [98] = none := rfl

/-- C9 (code bug): for the single-symbol input "aaa", `encode` succeeds (the
tree is a single leaf, the symbol's code is the empty string, the payload is
empty), but `decode` of the produced container writes back the empty text,
not the original repeated-symbol sequence. -/
theorem c9_single_symbol_decode_empty :
    buildTree (readTable [97, 97, 97]) = some (HTree.leaf 97 3) ∧
    generateHuffmanCode (HTree.leaf 97 3) = [(97, [])] ∧
    encode [97, 97, 97] = .ok [72, 85, 70, 70, 0, 0, 0, 3, 1, 97, 0] ∧
    decode 1 [72, 85, 70, 70, 0, 0, 0, 3, 1, 97, 0] = some (.wrote []) ∧
    [] ≠ [97, 97, 97] :=
  ⟨rfl, rfl, rfl, rfl, by decide⟩

/-- C1 (corrected): the round trip `decode (encode src) = src` holds
whenever no pad bits are needed — the concatenated code length is a multiple
of 8 — and the input has at least two (and, so that every code length fits
its 1-byte field, at most 256) distinct symbols.  With pad bits the round
trip fails (see the counterexample): the format stores no exact bit length,
so the zero padding is decoded as extra symbols or loops forever. -/
theorem c1_round_trip (src : List Nat) (hne : src ≠ [])
    (hvalid : ∀ c ∈ src, validScalar c)
    (halpha2 : 2 ≤ (readTable src).length)
    (halpha256 : (readTable src).length ≤ 256)
    (hmod : (encodedBits src).length % 8 = 0) :
    ∃ bytes, encode src = .ok bytes ∧
      ∀ fuel, src.length ≤ fuel → decode fuel bytes = some (.wrote src) := by
  have htne : readTable src ≠ [] := by
    intro h
    rw [h] at halpha2
    simp at halpha2
  obtain ⟨t0, ht0, -, hleaves0, -, -, hdep0⟩ := buildTree_facts (readTable src) htne
  obtain ⟨t, ht, hct, henc⟩ := encode_ok src hne
  have htt : t0 = t := by
    rw [ht] at ht0
    exact Option.some_inj.1 ht0.symm
  subst htt
  have hleaves : t0.leaves.Perm ((readTable src).map Prod.fst) := hleaves0
  have hCBfst : (generateHuffmanCode t0).map Prod.fst = t0.leaves := dfs_fst t0 []
  have hleafnodup : t0.leaves.Nodup := (hleaves.nodup_iff).2 (readTable_nodup src)
  have hleafcount : t0.leaves.length = (readTable src).length := by
    have h1 := hleaves.length_eq
    simpa using h1
  have hCBlen : (generateHuffmanCode t0).length = (readTable src).length := by
    have h1 : (generateHuffmanCode t0).length = t0.leaves.length := by
      have h2 := congrArg List.length hCBfst
      simpa using h2
    rw [h1, hleafcount]
  -- every code fits its hypotheses: length ≤ 255, ASCII, valid symbol
  have hlens : ∀ e ∈ generateHuffmanCode t0, e.2.length ≤ 255 := by
    intro e he
    have h1 := dfs_code_length t0 [] e he
    have h2 : t0.depth + 1 ≤ t0.leafCount := hdep0
    have h3 : t0.leafCount = (readTable src).length := by
      rw [HTree.leafCount, hleafcount]
    simp only [List.length_nil] at h1
    omega
  have hsyms : ∀ e ∈ generateHuffmanCode t0, validScalar e.1 := by
    intro e he
    have h1 : e.1 ∈ (generateHuffmanCode t0).map Prod.fst :=
      List.mem_map.2 ⟨e, he, rfl⟩
    rw [hCBfst] at h1
    exact hvalid e.1 ((readTable_mem src e.1).1 (hleaves.mem_iff.1 h1))
  have hascii : ∀ e ∈ generateHuffmanCode t0, ∀ b ∈ e.2, b < 0x80 := by
    intro e he b hb
    rcases dfs_code_binary t0 [] (by simp) e he b hb with rfl | rfl
    · omega
    · omega
  have hcne : ∀ e ∈ generateHuffmanCode t0, e.2 ≠ [] := by
    have hlc2 : 2 ≤ t0.leaves.length := by omega
    match t0, hlc2 with
    | HTree.leaf s w, hlc2 => simp [HTree.leaves] at hlc2
    | HTree.internal l r w, _ => exact dfs_code_ne_nil l r w
  -- the symbol stream as (code, symbol) pairs of the reverse table
  have hcsmem : ∀ e ∈ src.map fun c => (codeOf (generateHuffmanCode t0) c, c),
      e ∈ revTable (generateHuffmanCode t0) := by
    intro e he
    obtain ⟨c, hc, rfl⟩ := List.mem_map.1 he
    have h1 : c ∈ (generateHuffmanCode t0).map Prod.fst := by
      rw [hCBfst]
      exact hleaves.mem_iff.2 ((readTable_mem src c).2 hc)
    obtain ⟨v, hv⟩ := lookupCode_isSome (generateHuffmanCode t0) c h1
    have h2 : (c, v) ∈ generateHuffmanCode t0 := lookupCode_mem _ c v hv
    have h3 : codeOf (generateHuffmanCode t0) c = v := by
      rw [codeOf, hv, Option.getD_some]
    rw [h3]
    exact List.mem_map.2 ⟨(c, v), h2, rfl⟩
  have hcsfst : (((src.map fun c => (codeOf (generateHuffmanCode t0) c, c)).map
      Prod.fst).flatten) = encodedBits src := by
    rw [encodedBits, hct, List.map_map]
    rfl
  have hcssnd : ((src.map fun c => (codeOf (generateHuffmanCode t0) c, c)).map
      Prod.snd) = src := by
    rw [List.map_map]
    exact List.map_id src
  have hbits_binary : ∀ b ∈ encodedBits src, b = 48 ∨ b = 49 := by
    intro b hb
    rw [← hcsfst] at hb
    obtain ⟨piece, hpiece, hbp⟩ := List.mem_flatten.1 hb
    obtain ⟨e, he, rfl⟩ := List.mem_map.1 hpiece
    obtain ⟨c, hc, rfl⟩ := List.mem_map.1 he
    have h1 : c ∈ (generateHuffmanCode t0).map Prod.fst := by
      rw [hCBfst]
      exact hleaves.mem_iff.2 ((readTable_mem src c).2 hc)
    obtain ⟨v, hv⟩ := lookupCode_isSome (generateHuffmanCode t0) c h1
    have h2 : (c, v) ∈ generateHuffmanCode t0 := lookupCode_mem _ c v hv
    have h3 : codeOf (generateHuffmanCode t0) c = v := by
      rw [codeOf, hv, Option.getD_some]
    rw [h3] at hbp
    exact dfs_code_binary t0 [] (by simp) (c, v) h2 b hbp
  have hpad : padZeros (encodedBits src) = encodedBits src :=
    padZeros_eq_self _ hmod
  rw [hpad] at henc
  -- the container bytes, split as decode reads them
  have hT32 : (serializeTable (generateHuffmanCode t0)).length < 2 ^ 32 := by
    have h1 := serializeTable_length_le (generateHuffmanCode t0) hlens
    omega
  have hbytes : writeHeader (generateHuffmanCode t0) ++
      (chunks8 (encodedBits src)).map bitsToByte =
      magicBytes ++ (be32 (serializeTable (generateHuffmanCode t0)).length ++
        (serializeTable (generateHuffmanCode t0) ++
          (chunks8 (encodedBits src)).map bitsToByte)) := by
    simp [writeHeader, List.append_assoc]
  refine ⟨_, henc, ?_⟩
  intro fuel hfuel
  rw [hbytes]
  set S := serializeTable (generateHuffmanCode t0) with hS
  set P := (chunks8 (encodedBits src)).map bitsToByte with hP
  set B := magicBytes ++ (be32 S.length ++ (S ++ P)) with hB
  have hmlen : magicBytes.length = 4 := rfl
  have hblen : (be32 S.length).length = 4 := rfl
  have hlen4 : ¬B.length < 4 := by
    simp only [hB, List.length_append]
    omega
  have hmagic : ¬B.take 4 ≠ magicBytes := by
    intro hcon
    exact hcon (List.take_left magicBytes (be32 S.length ++ (S ++ P)))
  have hlen8 : ¬B.length < 8 := by
    simp only [hB, List.length_append]
    omega
  have hdrop4 : B.drop 4 = be32 S.length ++ (S ++ P) :=
    List.drop_left magicBytes (be32 S.length ++ (S ++ P))
  have htableLen : be32val (B.drop 4) = S.length := by
    rw [hdrop4]
    exact be32val_be32 S.length hT32 (S ++ P)
  have hdrop8 : B.drop 8 = S ++ P := by
    have h1 : B = (magicBytes ++ be32 S.length) ++ (S ++ P) := by
      rw [hB, List.append_assoc]
    rw [h1]
    exact List.drop_left (magicBytes ++ be32 S.length) (S ++ P)
  have hfuelT : (generateHuffmanCode t0).length < S.length + 1 := by
    have h1 := serializeTable_length_ge (generateHuffmanCode t0)
    rw [← hS] at h1
    omega
  have hparse : parseTableAux (S.length + 1) S.length 0 (S ++ P) [] =
      .ok (insertAll [] (generateHuffmanCode t0)) P := by
    have h1 := parseTableAux_ser (generateHuffmanCode t0) (S.length + 1) 0 P []
      hsyms hlens hascii hfuelT
    rw [Nat.zero_add] at h1
    exact h1
  have hinsert : insertAll [] (generateHuffmanCode t0) =
      revTable (generateHuffmanCode t0) := by
    have h1 := insertAll_revTable (generateHuffmanCode t0) [] (by simp)
      (codes_nodup t0 hleafnodup)
    simpa using h1
  have hbitsback : ((P.map toBin8).flatten) = encodedBits src := by
    rw [hP, List.map_map]
    exact chunks8_unpack (encodedBits src).length (encodedBits src) (le_refl _)
      hmod hbits_binary
  have hTne : ∀ e ∈ revTable (generateHuffmanCode t0), e.1 ≠ [] := by
    intro e he
    obtain ⟨e0, he0, rfl⟩ := List.mem_map.1 he
    exact hcne e0 he0
  have hloop : decodeLoop fuel (revTable (generateHuffmanCode t0))
      (encodedBits src) [] = some src := by
    have h1 := decodeLoop_decodes (revTable (generateHuffmanCode t0))
      (revTable_pairwise t0 hleafnodup) hTne fuel
      (src.map fun c => (codeOf (generateHuffmanCode t0) c, c)) hcsmem
      (by rw [List.length_map]; exact hfuel) []
    rw [hcsfst, hcssnd] at h1
    simpa using h1
  show decode fuel B = some (.wrote src)
  rw [decode, if_neg hlen4, if_neg hmagic, if_neg hlen8]
  simp only [htableLen, hdrop8, hparse, hinsert, hbitsback, hloop]

/-- Witness for C1 on the 8-character source "aaaabbbb" (two symbols, codes
of one bit each, 8 bits of payload: no padding). -/
theorem c1_round_trip_witness :
    ∃ bytes, encode [97, 97, 97, 97, 98, 98, 98, 98] = .ok bytes ∧
      decode 8 bytes = some (.wrote [97, 97, 97, 97, 98, 98, 98, 98]) := by
  obtain ⟨bytes, henc, hdec⟩ :=
    c1_round_trip [97, 97, 97, 97, 98, 98, 98, 98] (by decide) (by decide)
      (by decide) (by decide) (by decide)
  exact ⟨bytes, henc, hdec 8 (by decide)⟩

/-- Counterexample to C1 as stated: the container of "ab" needs 6 pad bits,
and decode turns them into six spurious extra symbols: the destination
receives "abaaaaaa", not "ab".  (The format does not store the exact bit
length, so the trailing-pad ambiguity of §4.5 is not resolved.) -/
theorem c1_round_trip_counterexample :
    encode [97, 98] =
      .ok [72, 85, 70, 70, 0, 0, 0, 8, 1, 97, 1, 48, 1, 98, 1, 49, 64] ∧
    decode 20 [72, 85, 70, 70, 0, 0, 0, 8, 1, 97, 1, 48, 1, 98, 1, 49, 64] =
      some (.wrote [97, 98, 97, 97, 97, 97, 97, 97]) ∧
    [97, 98, 97, 97, 97, 97, 97, 97] ≠ [97, 98] :=
  ⟨rfl, rfl, by decide⟩

/-- C8 (code bug): `stuckContainer` is accepted by `decode` (magic matches,
the table parses to the single entry "11" ↦ 'a'), its payload byte expands
to the bits "00000000" which no code matches, and the greedy loop never
terminates: `decode` yields no outcome at any fuel. -/
theorem c8_greedy_loop_diverges :
    stuckContainer.take 4 = magicBytes ∧
    parseTableAux 6 5 0 [1, 97, 2, 49, 49, 0] [] =
      .ok [([49, 49], 97)] [0] ∧
    ∀ fuel, decode fuel stuckContainer = none := by
  refine ⟨rfl, rfl, ?_⟩
  intro fuel
  have h1 : decode fuel stuckContainer =
      match decodeLoop fuel [([49, 49], 97)]
          [48, 48, 48, 48, 48, 48, 48, 48] [] with
      | none => none
      | some out => some (.wrote out) := rfl
  rw [h1, decodeLoop_stuck [([49, 49], 97)] [48, 48, 48, 48, 48, 48, 48, 48]
    (by decide) (by decide) fuel []]

/-- C2: for every non-empty frequency table, the code table produced by
`generate_huffman_code` on the tree built by `build_tree` is prefix-free: no
symbol's code is a prefix of a different symbol's code. -/
theorem c2_code_table_prefix_free (table : List (Nat × Nat))
    (_hne : table ≠ []) (t : HTree) (_hbt : buildTree table = some t) :
    ∀ e1 ∈ generateHuffmanCode t, ∀ e2 ∈ generateHuffmanCode t,
      e1.1 ≠ e2.1 → ¬e1.2 <+: e2.2 :=
  fun e1 h1 e2 h2 hne12 => dfs_prefixFree t e1 h1 e2 h2 hne12

/-- Witness for C2 at the table {a↦1, b↦1, c↦2}: the generated codes are
c↦"0", a↦"10", b↦"11", and "10" is not a prefix of "11". -/
theorem c2_code_table_prefix_free_witness : ¬[49, 48] <+: [49, 49] :=
  c2_code_table_prefix_free [(97, 1), (98, 1), (99, 2)] (by decide)
    (HTree.internal (HTree.leaf 99 2)
      (HTree.internal (HTree.leaf 97 1) (HTree.leaf 98 1) 2) 4) rfl
    (97, [49, 48]) (by decide) (98, [49, 49]) (by decide) (by decide)

/-- C3: for every non-empty frequency table (distinct symbols), the tree
returned by `build_tree` satisfies: every internal node's weight is the sum
of its children's weights (`wf`), the root weight is the sum of all
frequencies, the leaves are exactly the table's distinct symbols, and there
are exactly `|alphabet|` leaves and `|alphabet| - 1` internal nodes (0 for a
single-symbol alphabet). -/
theorem c3_build_tree_invariants (table : List (Nat × Nat))
    (hne : table ≠ []) (hnd : (table.map Prod.fst).Nodup) :
    ∃ t, buildTree table = some t ∧ t.wf = true ∧
      t.weight = (table.map Prod.snd).sum ∧
      t.leaves.Perm (table.map Prod.fst) ∧ t.leaves.Nodup ∧
      t.leafCount = table.length ∧
      t.internalCount = table.length - 1 := by
  obtain ⟨t, ht, hw, hl, hwf, hc, -⟩ := buildTree_facts table hne
  have hlen : t.leafCount = table.length := by
    have := hl.length_eq
    simpa [HTree.leafCount] using this
  exact ⟨t, ht, hwf, hw, hl, (hl.nodup_iff).2 hnd, hlen, by omega⟩

/-- Witness for C3 at the table {a↦1, b↦2}. -/
theorem c3_build_tree_invariants_witness :
    ∃ t, buildTree [(97, 1), (98, 2)] = some t ∧ t.wf = true ∧
      t.weight = ([(97, 1), (98, 2)].map Prod.snd).sum ∧
      t.leaves.Perm ([(97, 1), (98, 2)].map Prod.fst) ∧ t.leaves.Nodup ∧
      t.leafCount = [(97, 1), (98, 2)].length ∧
      t.internalCount = [(97, 1), (98, 2)].length - 1 :=
  c3_build_tree_invariants [(97, 1), (98, 2)] (by decide) (by decide)

/-- C4: one iteration of the merge loop of `build_tree`, on any heap with at
least two nodes, removes a minimal-weight node `x`, then a minimal-weight
node `y` of the remainder, and continues with the internal node whose left
child is `x` (first removed), right child is `y` (second removed) and weight
is `x.weight + y.weight`.  Which of several equal-weight nodes is removed is
a property of the queue, not constrained beyond minimality. -/
theorem c4_merge_step (n : Nat) (a b : HTree) (rest : List HTree) :
    ∃ x y c r1 r2,
      popMinAux a (b :: rest) = (x, c :: r1) ∧
      popMinAux c r1 = (y, r2) ∧
      (∀ u ∈ a :: b :: rest, x.weight ≤ u.weight) ∧
      (∀ u ∈ c :: r1, y.weight ≤ u.weight) ∧
      (a :: b :: rest).Perm (x :: c :: r1) ∧
      buildLoopN (n + 1) (a :: b :: rest) =
        buildLoopN n (r2 ++ [HTree.internal x y (x.weight + y.weight)]) := by
  have hp1len : (popMinAux a (b :: rest)).2.length = rest.length + 1 := by
    simpa using popMinAux_length a (b :: rest)
  match hp : (popMinAux a (b :: rest)).2 with
  | [] => rw [hp] at hp1len; simp at hp1len
  | c :: r1 =>
    refine ⟨(popMinAux a (b :: rest)).1, (popMinAux c r1).1, c, r1,
      (popMinAux c r1).2, ?_, rfl, popMinAux_min a (b :: rest),
      popMinAux_min c r1, ?_, ?_⟩
    · have : popMinAux a (b :: rest) =
          ((popMinAux a (b :: rest)).1, (popMinAux a (b :: rest)).2) := rfl
      rw [this, hp]
    · have := popMinAux_perm a (b :: rest)
      rwa [hp] at this
    · conv_lhs => rw [buildLoopN]
      rw [hp]

/-- Witness for C4 on the heap [leaf 1 5, leaf 2 3, leaf 3 7]: the node of
weight 3 is removed first, then the node of weight 5. -/
theorem c4_merge_step_witness :
    ∃ x y c r1 r2,
      popMinAux (HTree.leaf 1 5) [HTree.leaf 2 3, HTree.leaf 3 7] = (x, c :: r1) ∧
      popMinAux c r1 = (y, r2) ∧
      (∀ u ∈ [HTree.leaf 1 5, HTree.leaf 2 3, HTree.leaf 3 7],
        x.weight ≤ u.weight) ∧
      (∀ u ∈ c :: r1, y.weight ≤ u.weight) ∧
      ([HTree.leaf 1 5, HTree.leaf 2 3, HTree.leaf 3 7]).Perm (x :: c :: r1) ∧
      buildLoopN 3 [HTree.leaf 1 5, HTree.leaf 2 3, HTree.leaf 3 7] =
        buildLoopN 2 (r2 ++ [HTree.internal x y (x.weight + y.weight)]) :=
  c4_merge_step 2 (HTree.leaf 1 5) (HTree.leaf 2 3) [HTree.leaf 3 7]

/-- C10: `build_tree` is partial at the public interface: on the empty
frequency table the final `heap.pop().unwrap()` fails (so `encode` of empty
input panics and cannot return a container), while every non-empty table
makes all the unwraps inside the loop and the final pop succeed. -/
theorem c10_build_tree_partiality :
    buildTree ([] : List (Nat × Nat)) = none ∧
    encode ([] : List Nat) = .panicked ∧
    ∀ table : List (Nat × Nat), table ≠ [] → ∃ t, buildTree table = some t := by
  refine ⟨rfl, rfl, ?_⟩
  intro table hne
  obtain ⟨t, ht, -⟩ := buildTree_facts table hne
  exact ⟨t, ht⟩

/-- Witness for C10: the single-entry table {10↦3} builds successfully. -/
theorem c10_build_tree_partiality_witness :
    buildTree [(10, 3)] ≠ none ∧ encode ([] : List Nat) = .panicked := by
  obtain ⟨-, henc, hall⟩ := c10_build_tree_partiality
  obtain ⟨t, ht⟩ := hall [(10, 3)] (by decide)
  exact ⟨by rw [ht]; simp, henc⟩

end HuffmanModel

